import Mathlib

/-!
Verification of the redis-om JSON transcoder (`toRedisJson` / `fromRedisJson`
in the transformer source) and of the Redis shim's `hsetall` write path,
over a shallow embedding of the TypeScript source.

JavaScript numbers are modelled as integers, `Date` objects by the epoch
seconds they denote, and geo-point objects `{longitude, latitude}` by their
coordinate pair.
-/

set_option maxHeartbeats 1000000

namespace RedisOm

/-- JavaScript values as they appear in application and store documents:
JSON scalars, `undefined`, `Date` objects (carried as epoch seconds),
geo-point objects (carried as a longitude/latitude pair), arrays, and
plain objects (ordered association lists, as JavaScript objects are). -/
inductive JVal where
  | null : JVal
  | undef : JVal
  | bool : Bool → JVal
  | num : Int → JVal
  | str : String → JVal
  | date : Int → JVal
  | point : Int → Int → JVal
  | arr : List JVal → JVal
  | obj : List (String × JVal) → JVal
deriving Repr

/-- Modelled from the spec: the `isNull` type guard of transformer-common
(not under src/). -/
def isNull (v : JVal) : Bool := match v with | .null => true | _ => false

/-- Modelled from the spec: the `isUndefined` type guard of
transformer-common (not under src/). -/
def isUndefined (v : JVal) : Bool := match v with | .undef => true | _ => false

/-- Modelled from the spec: the `isDefined` type guard of transformer-common
(not under src/) — anything other than `undefined` is defined. -/
def isDefined (v : JVal) : Bool := !(isUndefined v)

/-- Modelled from the spec: the `isNullish` type guard of transformer-common
(not under src/) — `null` or `undefined`. -/
def isNullish (v : JVal) : Bool := isNull v || isUndefined v

/-- Modelled from the spec: the `isBoolean` type guard of
transformer-common (not under src/). -/
def isBoolean (v : JVal) : Bool := match v with | .bool _ => true | _ => false

/-- Modelled from the spec: the `isNumber` type guard of transformer-common
(not under src/). -/
def isNumber (v : JVal) : Bool := match v with | .num _ => true | _ => false

/-- Modelled from the spec: the `isString` type guard of transformer-common
(not under src/). -/
def isString (v : JVal) : Bool := match v with | .str _ => true | _ => false

/-- Modelled from the spec: the `isDate` type guard of transformer-common
(not under src/). -/
def isDate (v : JVal) : Bool := match v with | .date _ => true | _ => false

/-- Modelled from the spec: the `isArray` type guard of transformer-common
(not under src/). -/
def isArray (v : JVal) : Bool := match v with | .arr _ => true | _ => false

/-- Modelled from the spec: the `isObject` type guard of transformer-common
(not under src/) — a plain object, excluding arrays and dates (the spec's
cleanup pass recurses into nested objects and leaves arrays and scalars
alone). Geo-point objects are modelled as atomic values. -/
def isObject (v : JVal) : Bool := match v with | .obj _ => true | _ => false

/-- Modelled from the spec: the `isPoint` type guard of transformer-common
(not under src/) — recognises a geo-point object. -/
def isPoint (v : JVal) : Bool := match v with | .point _ _ => true | _ => false

/-! ### Decimal rendering and parsing of integers

JavaScript renders integral numbers in decimal; the point converters store
`"lon,lat"` strings built from that rendering. -/

/-- Modelled from the spec: JavaScript decimal rendering of a natural
number as a list of digit characters. -/
def natChars (n : Nat) : List Char :=
  if n = 0 then [ '0' ] else (Nat.digits 10 n).reverse.map Nat.digitChar

/-- Modelled from the spec: JavaScript decimal rendering of an integer —
digit characters, with a leading minus sign for negative values. -/
def intChars (n : Int) : List Char :=
  if n < 0 then '-' :: natChars (-n).toNat else natChars n.toNat

/-- Parse a single decimal digit character. -/
def charToDigit (c : Char) : Option Nat :=
  if c.isDigit then some (c.toNat - Char.toNat '0') else none

/-- Parse each character of a list as a decimal digit. -/
def digitsFromChars : List Char → Option (List Nat)
  | [] => some []
  | c :: cs =>
      match charToDigit c, digitsFromChars cs with
      | some d, some ds => some (d :: ds)
      | _, _ => none

/-- Parse a nonempty run of decimal digit characters as a natural number. -/
def natFromChars (cs : List Char) : Option Nat :=
  match digitsFromChars cs with
  | some ds => if cs.isEmpty then none else some (Nat.ofDigits 10 ds.reverse)
  | none => none

/-- Parse an optionally minus-signed run of decimal digits as an integer. -/
def intFromChars (cs : List Char) : Option Int :=
  match cs with
  | [] => none
  | c :: rest =>
      if c = '-' then (natFromChars rest).map (fun n => -(n : Int))
      else (natFromChars cs).map (fun n => (n : Int))

theorem charToDigit_digitChar {d : Nat} (h : d < 10) :
    charToDigit (Nat.digitChar d) = some d := by
  interval_cases d <;> decide

theorem digitChar_isDigit {d : Nat} (h : d < 10) :
    (Nat.digitChar d).isDigit = true := by
  interval_cases d <;> decide

theorem digitsFromChars_map_digitChar (l : List Nat) (h : ∀ d ∈ l, d < 10) :
    digitsFromChars (l.map Nat.digitChar) = some l := by
  induction l with
  | nil => rfl
  | cons d rest ih =>
      have hd : d < 10 := h d (List.mem_cons_self d rest)
      have hrest : ∀ x ∈ rest, x < 10 := fun x hx => h x (List.mem_cons_of_mem d hx)
      simp [digitsFromChars, charToDigit_digitChar hd, ih hrest]

theorem natChars_ne_nil (n : Nat) : natChars n ≠ [] := by
  by_cases h : n = 0
  · simp [natChars, h]
  · simp only [natChars, if_neg h]
    intro hcon
    have hdig : Nat.digits 10 n ≠ [] := Nat.digits_ne_nil_iff_ne_zero.mpr h
    simp only [List.map_eq_nil_iff, List.reverse_eq_nil_iff] at hcon
    exact hdig hcon

theorem natChars_all_digits (n : Nat) : ∀ c ∈ natChars n, c.isDigit = true := by
  intro c hc
  by_cases h : n = 0
  · simp [natChars, h] at hc
    simp [hc]
  · simp only [natChars, if_neg h, List.mem_map, List.mem_reverse] at hc
    obtain ⟨d, hd, rfl⟩ := hc
    exact digitChar_isDigit (Nat.digits_lt_base (by norm_num) hd)

theorem natFromChars_natChars (n : Nat) : natFromChars (natChars n) = some n := by
  by_cases h : n = 0
  · subst h; decide
  · have hdig : ∀ d ∈ (Nat.digits 10 n).reverse, d < 10 := by
      intro d hd
      exact Nat.digits_lt_base (by norm_num) (List.mem_reverse.mp hd)
    have hne : ((Nat.digits 10 n).reverse.map Nat.digitChar).isEmpty = false := by
      rcases hlist : (Nat.digits 10 n).reverse.map Nat.digitChar with _ | ⟨c, cs⟩
      · exfalso
        apply natChars_ne_nil n
        simp [natChars, if_neg h, hlist]
      · rfl
    simp only [natFromChars, natChars, if_neg h,
      digitsFromChars_map_digitChar _ hdig, hne, Bool.false_eq_true,
      if_false, List.reverse_reverse, Nat.ofDigits_digits]

theorem intFromChars_intChars (n : Int) : intFromChars (intChars n) = some n := by
  by_cases hneg : n < 0
  · simp only [intChars, if_pos hneg]
    simp only [intFromChars, if_pos rfl, natFromChars_natChars]
    have h0 : (0 : Int) ≤ -n := by omega
    simp [Int.toNat_of_nonneg h0]
  · simp only [intChars, if_neg hneg]
    rcases hchars : natChars n.toNat with _ | ⟨c, cs⟩
    · exact absurd hchars (natChars_ne_nil _)
    · have hcdig : c.isDigit = true := by
        apply natChars_all_digits n.toNat
        rw [hchars]; exact List.mem_cons_self c cs
      have hcne : c ≠ '-' := by
        intro hcon; rw [hcon] at hcdig; exact absurd hcdig (by decide)
      rw [← hchars]
      have hres : natFromChars (natChars n.toNat) = some n.toNat :=
        natFromChars_natChars n.toNat
      have htn : ((n.toNat : Int)) = n := Int.toNat_of_nonneg (by omega)
      rw [hchars]
      simp only [intFromChars, if_neg hcne, ← hchars, hres]
      simp [htn]

/-- Split a character list at its first comma. -/
def splitAtComma : List Char → Option (List Char × List Char)
  | [] => none
  | c :: cs =>
      if c = ',' then some ([], cs)
      else (splitAtComma cs).map (fun p => (c :: p.1, p.2))

theorem splitAtComma_append (pre post : List Char) (h : ∀ c ∈ pre, c ≠ ',') :
    splitAtComma (pre ++ ',' :: post) = some (pre, post) := by
  induction pre with
  | nil => simp [splitAtComma]
  | cons c cs ih =>
      have hc : c ≠ ',' := h c (List.mem_cons_self c cs)
      have hcs : ∀ x ∈ cs, x ≠ ',' := fun x hx => h x (List.mem_cons_of_mem c hx)
      simp [splitAtComma, hc, ih hcs]

theorem intChars_ne_comma (n : Int) : ∀ c ∈ intChars n, c ≠ ',' := by
  intro c hc
  have : c = '-' ∨ c.isDigit = true := by
    by_cases hneg : n < 0
    · simp only [intChars, if_pos hneg, List.mem_cons] at hc
      rcases hc with rfl | hc
      · exact Or.inl rfl
      · exact Or.inr (natChars_all_digits _ c hc)
    · simp only [intChars, if_neg hneg] at hc
      exact Or.inr (natChars_all_digits _ c hc)
  rcases this with rfl | hdig
  · decide
  · intro hcon; rw [hcon] at hdig; exact absurd hdig (by decide)

/-- Modelled from the spec: `convertPointToString` of transformer-common
(not under src/) — the canonical store form of a geo-point, the string
`"lon,lat"`. -/
def convertPointToString (lon lat : Int) : String :=
  String.mk (intChars lon ++ ',' :: intChars lat)

/-- Modelled from the spec: `convertStringToPoint` of transformer-common
(not under src/) — parses the canonical `"lon,lat"` string back into a
geo-point's coordinates. -/
def convertStringToPoint (s : String) : Option (Int × Int) :=
  match splitAtComma s.toList with
  | some p =>
      match intFromChars p.1, intFromChars p.2 with
      | some lon, some lat => some (lon, lat)
      | _, _ => none
  | none => none

/-- Modelled from the spec: the `isPointString` type guard of
transformer-common (not under src/) — recognises the canonical
`"lon,lat"` store form. -/
def isPointString (v : JVal) : Bool :=
  match v with
  | .str s => (convertStringToPoint s).isSome
  | _ => false

theorem convertStringToPoint_convertPointToString (lon lat : Int) :
    convertStringToPoint (convertPointToString lon lat) = some (lon, lat) := by
  have hsplit : splitAtComma (intChars lon ++ ',' :: intChars lat)
      = some (intChars lon, intChars lat) :=
    splitAtComma_append _ _ (intChars_ne_comma lon)
  simp [convertStringToPoint, convertPointToString, String.toList, hsplit,
    intFromChars_intChars]

/-! ### Date converters -/

/-- Modelled from the spec: `convertDateToEpoch` of transformer-common (not
under src/) — a `Date` is stored as the epoch seconds it denotes; the model
carries a `Date` as its epoch seconds, so this is the identity on the
carried value. -/
def convertDateToEpoch (t : Int) : Int := t

/-- Modelled from the spec: `convertEpochToDate` of transformer-common (not
under src/) — rebuilds a `Date` (epoch seconds in the model) from the
stored epoch number. -/
def convertEpochToDate (n : Int) : Int := n

/-- Split a character list at every occurrence of a separator. -/
def splitOnChar (sep : Char) : List Char → List (List Char)
  | [] => [[]]
  | c :: cs =>
      let rest := splitOnChar sep cs
      if c = sep then [] :: rest
      else
        match rest with
        | r :: rs => (c :: r) :: rs
        | [] => [[ c ]]

/-- Days between 1970-01-01 and the given civil date (standard
days-from-civil computation). -/
def daysFromCivil (y m d : Int) : Int :=
  let y2 := if m ≤ 2 then y - 1 else y
  let era := (if 0 ≤ y2 then y2 else y2 - 399) / 400
  let yoe := y2 - era * 400
  let mp := (m + 9) % 12
  let doy := (153 * mp + 2) / 5 + d - 1
  let doe := yoe * 365 + yoe / 4 - yoe / 100 + doy
  era * 146097 + doe - 719468

/-- Modelled from the spec: `convertIsoDateToEpoch` of transformer-common
(not under src/) — parses an ISO-8601 timestamp (`YYYY-MM-DD`, optionally
`THH:MM:SS` with an ignored fractional part and a trailing `Z`) into epoch
seconds. Strings outside the spec's ISO-8601 domain are mapped to 0. -/
def convertIsoDateToEpoch (s : String) : Int :=
  let timeSecs : List Char → Int := fun t =>
    let t2 := if t.getLast? = some 'Z' then t.dropLast else t
    match splitOnChar ':' t2 with
    | [hh, mm, ss] =>
        let secPart := (splitOnChar '.' ss).headI
        ((natFromChars hh).getD 0 : Int) * 3600 +
          ((natFromChars mm).getD 0 : Int) * 60 +
          ((natFromChars secPart).getD 0 : Int)
    | _ => 0
  let dateDays : List Char → Int := fun d =>
    match splitOnChar '-' d with
    | [y, m, dd] =>
        daysFromCivil ((natFromChars y).getD 0) ((natFromChars m).getD 0)
          ((natFromChars dd).getD 0)
    | _ => 0
  match splitOnChar 'T' s.toList with
  | [d] => dateDays d * 86400
  | [d, t] => dateDays d * 86400 + timeSecs t
  | _ => 0

/-! ### The restricted path language and in-place locations

The schema's paths go through the JSONPath library; the spec restricts the
language to direct field access (with the `$.<fieldName>` default
shorthand) and wildcard fan-out, resolved root-relative.  A match carries
enough context to overwrite in place: here, the full key trail from the
root to the matched value (its last key is the `parentProperty`, the trail
before it addresses the `parent`). -/

/-- One step of the restricted path language. -/
inductive JStep where
  | child (name : String) : JStep
  | wildcard : JStep
deriving Repr, DecidableEq

/-- A root-relative path: at least one step (the bare root path is not part
of the restricted language). -/
structure JPath where
  head : JStep
  tail : List JStep
deriving Repr, DecidableEq

/-- The default path of a schema field without an explicit path:
`$.<fieldName>`. -/
def defaultPath (fieldName : String) : JPath := ⟨.child fieldName, []⟩

/-- A key within a containing structure: an object property or an array
index. -/
inductive JKey where
  | fld (s : String) : JKey
  | idx (n : Nat) : JKey
deriving Repr, DecidableEq

instance : Inhabited JVal := ⟨.null⟩

/-- JavaScript object property lookup: the first entry with the given
name. -/
def lookupField : List (String × JVal) → String → Option JVal
  | [], _ => none
  | (k1, v1) :: rest, k => if k1 = k then some v1 else lookupField rest k

/-- Read one key of a container. -/
def getKey (j : JVal) (k : JKey) : Option JVal :=
  match j, k with
  | .obj fs, .fld s => lookupField fs s
  | .arr xs, .idx i => xs.get? i
  | _, _ => none

/-- Whether an object already has a property of the given name. -/
def hasField : List (String × JVal) → String → Bool
  | [], _ => false
  | (k1, _) :: rest, k => if k1 = k then true else hasField rest k

/-- Overwrite one object property, preserving property order (JavaScript
property update semantics). -/
def setField (fs : List (String × JVal)) (s : String) (v : JVal) :
    List (String × JVal) :=
  if hasField fs s then
    fs.map (fun p => (p.1, if p.1 = s then v else p.2))
  else fs ++ [(s, v)]

/-- Overwrite one key of a container (`parent[parentProperty] = v`). -/
def setKey (j : JVal) (k : JKey) (v : JVal) : JVal :=
  match j, k with
  | .obj fs, .fld s => .obj (setField fs s v)
  | .arr xs, .idx i => .arr (xs.set i v)
  | _, _ => j

/-- Resolve one path step against a value, in document order. -/
def resolveStep (j : JVal) (s : JStep) : List (JKey × JVal) :=
  match s, j with
  | .child name, .obj fs =>
      match lookupField fs name with
      | some v => [(.fld name, v)]
      | none => []
  | .child _, _ => []
  | .wildcard, .arr xs => xs.enum.map (fun p => (.idx p.1, p.2))
  | .wildcard, .obj fs => fs.map (fun p => (.fld p.1, p.2))
  | .wildcard, _ => []

/-- Resolve a step list against a value, returning every match as its full
key trail together with the matched value. -/
def resolveSteps (j : JVal) : List JStep → List (List JKey × JVal)
  | [] => [([], j)]
  | s :: rest =>
      (resolveStep j s).flatMap (fun kv =>
        (resolveSteps kv.2 rest).map (fun m => (kv.1 :: m.1, m.2)))

/-- Resolve a path against a document (the JSONPath call of the source,
restricted to the path language the spec admits). -/
def resolvePath (p : JPath) (j : JVal) : List (List JKey × JVal) :=
  resolveSteps j (p.head :: p.tail)

/-- Read the value at a key trail. -/
def getLoc (j : JVal) : List JKey → Option JVal
  | [] => some j
  | k :: ks =>
      match getKey j k with
      | some c => getLoc c ks
      | none => none

/-- Overwrite the value at a key trail (the in-place write through a
match's `parent` and `parentProperty`). -/
def setLoc (j : JVal) : List JKey → JVal → JVal
  | [], v => v
  | k :: ks, v =>
      match getKey j k with
      | some c => setKey j k (setLoc c ks v)
      | none => j

/-! ### Conversion errors

One constructor per distinct throw site of the transformer source, carrying
the data its message interpolates (the offending value, the path, or the
offending element's container). -/

/-- The errors the transformer can throw. -/
inductive ConvErr where
  | expectedBoolean (v : JVal)
  | expectedNumber (v : JVal)
  | expectedDate (v : JVal)
  | expectedPoint (v : JVal)
  | expectedStringValue (v : JVal)
  | expectedStringArray (v : JVal)
  | expectedBooleanFromJson (v : JVal)
  | expectedNumberFromJson (v : JVal)
  | expectedDateFromJson (v : JVal)
  | expectedPointFromJson (v : JVal)
  | expectedStringFromJson (v : JVal)
  | expectedStringArrayFromJson (v : JVal)
  | pointsToMany (path : JPath)
  | nullInContainer (parent : JVal)
  | undefInArrayContainer (parent : JVal)
  | nullInContainerFromJson (parent : JVal)
  | nullInArray (a : JVal)
  | undefInArray (a : JVal)
  | nullInArrayFromJson (a : JVal)
  | jsTypeError
deriving Repr

/-! ### JavaScript `toString` -/

mutual

/-- Modelled from the spec: JavaScript `String(v)` / `v.toString()` on a
value — booleans and numbers render canonically, strings are themselves,
arrays join their rendered elements with commas, plain objects (and
geo-point objects) render opaquely.  A `Date` renders
implementation-defined text in JavaScript; the model renders its epoch
seconds. -/
def jsToString : JVal → String
  | .null => "null"
  | .undef => "undefined"
  | .bool b => if b then "true" else "false"
  | .num n => String.mk (intChars n)
  | .str s => s
  | .date t => String.mk (intChars t)
  | .point _ _ => "[object Object]"
  | .arr xs => jsArrToString xs
  | .obj _ => "[object Object]"

/-- JavaScript `Array.prototype.toString`: elements joined by commas, with
null and undefined elements rendered empty. -/
def jsArrToString : List JVal → String
  | [] => ""
  | [x] => jsElemToString x
  | x :: xs => jsElemToString x ++ "," ++ jsArrToString xs

/-- One element of a joined array rendering. -/
def jsElemToString : JVal → String
  | .null => ""
  | .undef => ""
  | v => jsToString v

end

/-- Lines 150-155: `convertKnownValueToString` — accepts booleans, numbers
and strings, stringifying the first two; anything else is a type error. -/
def convertKnownValueToString (value : JVal) : Except ConvErr JVal :=
  if isBoolean value then .ok (.str (jsToString value))
  else if isNumber value then .ok (.str (jsToString value))
  else if isString value then .ok value
  else .error (.expectedStringValue value)

/-- Lines 162-166: the element loop of `convertArrayToStringArray` — null
and undefined elements are fatal (the error carries the offending
element's containing array); every other element is stringified with
JavaScript `toString`. -/
def convArrToStrGo (orig : JVal) : List JVal → Except ConvErr (List String)
  | [] => .ok []
  | v :: vs =>
      if isNull v then .error (.nullInArray orig)
      else if isUndefined v then .error (.undefInArray orig)
      else
        match convArrToStrGo orig vs with
        | .ok ss => .ok (jsToString v :: ss)
        | .error e => .error e

/-- Lines 162-166: `convertArrayToStringArray`. -/
def convertArrayToStringArray (a : List JVal) : Except ConvErr (List String) :=
  convArrToStrGo (.arr a) a

/-- Lines 157-160: the element loop of `convertFromJsonArrayToStringArray`
— a null element is fatal; an undefined element is not checked, and
calling `toString` on it raises a JavaScript TypeError; every other
element is stringified. -/
def convFromArrToStrGo (orig : JVal) : List JVal → Except ConvErr (List String)
  | [] => .ok []
  | v :: vs =>
      if isNull v then .error (.nullInArrayFromJson orig)
      else if isUndefined v then .error .jsTypeError
      else
        match convFromArrToStrGo orig vs with
        | .ok ss => .ok (jsToString v :: ss)
        | .error e => .error e

/-- Lines 157-160: `convertFromJsonArrayToStringArray`. -/
def convertFromJsonArrayToStringArray (a : List JVal) :
    Except ConvErr (List String) :=
  convFromArrToStrGo (.arr a) a

/-! ### Schema -/

/-- The declared field types of the schema language. -/
inductive FieldType where
  | boolean
  | number
  | date
  | point
  | string
  | text
  | stringArray
deriving Repr, DecidableEq

/-- One schema entry: a declared type and an optional storage path. -/
structure FieldDefinition where
  type : FieldType
  path : Option JPath
deriving Repr, DecidableEq

/-- A schema definition: field name to field definition, in definition
order (the source iterates `Object.entries`). -/
def SchemaDefinition : Type := List (String × FieldDefinition)

/-- The schema object handed to the transcoder (only its definition is
read). -/
structure Schema where
  definition : List (String × FieldDefinition)

/-! ### Encode: known values -/

/-- Lines 62-88: `convertKnownValueToJson` — null passes through; otherwise
per-type validation and coercion to the store form. -/
def convertKnownValueToJson (fieldType : FieldType) (value : JVal) :
    Except ConvErr JVal :=
  if isNull value then .ok value
  else
    match fieldType with
    | .boolean =>
        if isBoolean value then .ok value else .error (.expectedBoolean value)
    | .number =>
        if isNumber value then .ok value else .error (.expectedNumber value)
    | .date =>
        match value with
        | .date t => .ok (.num (convertDateToEpoch t))
        | .str s => .ok (.num (convertIsoDateToEpoch s))
        | .num n => .ok (.num n)
        | _ => .error (.expectedDate value)
    | .point =>
        match value with
        | .point lon lat => .ok (.str (convertPointToString lon lat))
        | _ => .error (.expectedPoint value)
    | .string | .text => convertKnownValueToString value
    | .stringArray =>
        match value with
        | .arr xs =>
            match convertArrayToStringArray xs with
            | .ok ss => .ok (.arr (ss.map JVal.str))
            | .error e => .error e
        | _ => .error (.expectedStringArray value)

/-! ### Decode: known values -/

/-- Lines 122-148: `convertKnownValueFromJson` — null passes through;
otherwise strict per-type validation of the stored shape, rebuilding the
application value. -/
def convertKnownValueFromJson (fieldDef : FieldDefinition) (value : JVal) :
    Except ConvErr JVal :=
  if isNull value then .ok value
  else
    match fieldDef.type with
    | .boolean =>
        if isBoolean value then .ok value
        else .error (.expectedBooleanFromJson value)
    | .number =>
        if isNumber value then .ok value
        else .error (.expectedNumberFromJson value)
    | .date =>
        match value with
        | .num n => .ok (.date (convertEpochToDate n))
        | _ => .error (.expectedDateFromJson value)
    | .point =>
        match value with
        | .str s =>
            match convertStringToPoint s with
            | some p => .ok (.point p.1 p.2)
            | none => .error (.expectedPointFromJson value)
        | _ => .error (.expectedPointFromJson value)
    | .string | .text =>
        match value with
        | .str _ => .ok value
        | .bool _ => .ok (.str (jsToString value))
        | .num _ => .ok (.str (jsToString value))
        | _ => .error (.expectedStringFromJson value)
    | .stringArray =>
        match value with
        | .arr xs =>
            match convertFromJsonArrayToStringArray xs with
            | .ok ss => .ok (.arr (ss.map JVal.str))
            | .error e => .error e
        | _ => .error (.expectedStringArrayFromJson value)

/-! ### Encode pipeline -/

/-- Lines 44-47: `convertKnownResultToJson` — a single match is converted
and written back in place, but only when its value is defined (an
undefined match is left for the cleanup pass). -/
def convertKnownResultToJson (fieldType : FieldType) (json : JVal)
    (m : List JKey × JVal) : Except ConvErr JVal :=
  if isDefined m.2 then
    match convertKnownValueToJson fieldType m.2 with
    | .ok v => .ok (setLoc json m.1 v)
    | .error e => .error e
  else .ok json

/-- Lines 51-56: the per-match loop of `convertKnownResultsToJson` for a
`string[]` field — null anywhere is fatal, undefined inside an array
parent is fatal, undefined inside an object parent is skipped, and every
other match is stringified and written back. -/
def convertKnownResultsToJsonGo (json : JVal) :
    List (List JKey × JVal) → Except ConvErr JVal
  | [] => .ok json
  | m :: ms =>
      let parent := (getLoc json m.1.dropLast).getD .null
      if isNull m.2 then .error (.nullInContainer parent)
      else if isUndefined m.2 && isArray parent then
        .error (.undefInArrayContainer parent)
      else if isDefined m.2 then
        match convertKnownValueToString m.2 with
        | .ok v => convertKnownResultsToJsonGo (setLoc json m.1 v) ms
        | .error e => .error e
      else convertKnownResultsToJsonGo json ms

/-- Lines 49-60: `convertKnownResultsToJson` — only `string[]` tolerates
multiple matches; any other type is a hard cardinality error naming the
path. -/
def convertKnownResultsToJson (fieldType : FieldType) (path : JPath)
    (json : JVal) (results : List (List JKey × JVal)) : Except ConvErr JVal :=
  if fieldType = .stringArray then convertKnownResultsToJsonGo json results
  else .error (.pointsToMany path)

/-- Lines 17-28: the body of `convertToRedisJsonKnown` for one schema
field — resolve the field's path (defaulting to `$.<fieldName>`) and
dispatch on the number of matches. -/
def convertToRedisJsonKnownField (json : JVal) (fieldName : String)
    (fieldDef : FieldDefinition) : Except ConvErr JVal :=
  let path := fieldDef.path.getD (defaultPath fieldName)
  match resolvePath path json with
  | [] => .ok json
  | [r] => convertKnownResultToJson fieldDef.type json r
  | rs => convertKnownResultsToJson fieldDef.type path json rs

/-- Lines 16-29: `convertToRedisJsonKnown` — every schema field in
definition order, threading the document being rewritten. -/
def convertToRedisJsonKnown (schemaDef : List (String × FieldDefinition))
    (json : JVal) : Except ConvErr JVal :=
  match schemaDef with
  | [] => .ok json
  | (name, fd) :: rest =>
      match convertToRedisJsonKnownField json name fd with
      | .ok j2 => convertToRedisJsonKnown rest j2
      | .error e => .error e

/-- Lines 90-93: `convertUnknownValueToJson` — dates become their epoch
form; everything else is untouched. -/
def convertUnknownValueToJson : JVal → JVal
  | .date t => .num (convertDateToEpoch t)
  | v => v

mutual

/-- Lines 31-42: `convertToRedisJsonUnknown` — the cleanup pass walks every
key of an object: undefined-valued keys are deleted, nested objects are
recursed into, and every other value goes through the unknown-value
conversion.  On a non-object, `Object.entries` yields nothing and the
value is returned unchanged. -/
def convertToRedisJsonUnknown : JVal → JVal
  | .obj fs => .obj (convertToRedisJsonUnknownFields fs)
  | j => j

/-- The entry loop of `convertToRedisJsonUnknown`. -/
def convertToRedisJsonUnknownFields :
    List (String × JVal) → List (String × JVal)
  | [] => []
  | (k, v) :: rest =>
      if isUndefined v then convertToRedisJsonUnknownFields rest
      else if isObject v then
        (k, convertToRedisJsonUnknown v) :: convertToRedisJsonUnknownFields rest
      else
        (k, convertUnknownValueToJson v) :: convertToRedisJsonUnknownFields rest

end

/-- Lines 10-14: `toRedisJson` — deep-copy the input (implicit under the
value semantics of the embedding; the heap model below carries the
mutation claim), convert the schema-known fields, then run the cleanup
pass over the whole document. -/
def toRedisJson (schema : Schema) (data : JVal) : Except ConvErr JVal :=
  match convertToRedisJsonKnown schema.definition data with
  | .ok json => .ok (convertToRedisJsonUnknown json)
  | .error e => .error e

/-! ### Decode pipeline -/

/-- Lines 112-116: the per-match loop of the decode multi-match case for a
`string[]` field — null is fatal, every other match is stringified and
written back (there is no undefined guard here). -/
def convertFromRedisJsonMultiGo (json : JVal) :
    List (List JKey × JVal) → Except ConvErr JVal
  | [] => .ok json
  | m :: ms =>
      let parent := (getLoc json m.1.dropLast).getD .null
      if isNull m.2 then .error (.nullInContainerFromJson parent)
      else
        match convertKnownValueToString m.2 with
        | .ok v => convertFromRedisJsonMultiGo (setLoc json m.1 v) ms
        | .error e => .error e

/-- Lines 102-119: the body of `convertFromRedisJsonKnown` for one schema
field — a single match is converted unconditionally and written back;
multiple matches are rewritten only for a `string[]` field, and for every
other type nothing at all is done. -/
def convertFromRedisJsonKnownField (data : JVal) (fieldName : String)
    (fieldDef : FieldDefinition) : Except ConvErr JVal :=
  let path := fieldDef.path.getD (defaultPath fieldName)
  match resolvePath path data with
  | [] => .ok data
  | [r] =>
      match convertKnownValueFromJson fieldDef r.2 with
      | .ok v => .ok (setLoc data r.1 v)
      | .error e => .error e
  | rs =>
      if fieldDef.type = .stringArray then convertFromRedisJsonMultiGo data rs
      else .ok data

/-- Lines 101-120: `convertFromRedisJsonKnown` — every schema field in
definition order. -/
def convertFromRedisJsonKnown (schemaDef : List (String × FieldDefinition))
    (data : JVal) : Except ConvErr JVal :=
  match schemaDef with
  | [] => .ok data
  | (name, fd) :: rest =>
      match convertFromRedisJsonKnownField data name fd with
      | .ok d2 => convertFromRedisJsonKnown rest d2
      | .error e => .error e

/-- Lines 95-99: `fromRedisJson` — deep-copy the stored document (implicit
under value semantics) and convert the schema-known fields; there is no
recursive pass over schema-unknown fields on decode. -/
def fromRedisJson (schema : Schema) (json : JVal) : Except ConvErr JVal :=
  convertFromRedisJsonKnown schema.definition json

/-! ### The Redis shim's `hsetall` write path (src/lib/redis/redis-shim.ts)

`hsetall` runs, on an isolated session, a watch on the key followed by one
transaction that queues an `UNLINK` of the key and then an `HSET` of the
flattened fields, and commits with `exec`.  A thrown `WatchError` is
replaced by the shim's distinguished `RedisError`; any other failure is
rethrown unchanged. -/

/-- A command queued inside the `multi()...exec()` transaction. -/
inductive TxCommand where
  | unlinkKey (key : String)
  | hSet (key : String) (data : List (String × String))
deriving Repr, DecidableEq

/-- A command issued on the session: the watch, or the committed
transaction with its queued commands (the `exec` that commits it). -/
inductive SessionCommand where
  | watch (key : String)
  | multiExec (queued : List TxCommand)
deriving Repr, DecidableEq

/-- What `redis.executeIsolated` runs: a command sequence on a dedicated
isolated session. -/
structure SessionRun where
  isolatedSession : Bool
  commands : List SessionCommand
deriving Repr, DecidableEq

/-- Lines 36-43: the session run of `hsetall` — on an isolated session,
watch the key, then one transaction queueing a delete of the key followed
by the flattened-field write, then commit. -/
def hsetallRun (key : String) (data : List (String × String)) : SessionRun :=
  ⟨true, [.watch key, .multiExec [.unlinkKey key, .hSet key data]]⟩

/-- The transaction commands queued inside the `multi` blocks of a session
run. -/
def queuedTx (cmds : List SessionCommand) : List TxCommand :=
  cmds.flatMap (fun c =>
    match c with
    | .multiExec q => q
    | _ => [])

/-- A Redis keyspace restricted to hash values: key to flattened field
map. -/
def Store : Type := String → Option (List (String × String))

/-- Redis `HSET` merge semantics: existing fields are updated in place,
new fields are appended. -/
def hashMerge (old data : List (String × String)) : List (String × String) :=
  old.map (fun p =>
    match data.find? (fun q => q.1 == p.1) with
    | some q => q
    | none => p) ++
    data.filter (fun q => !(old.any (fun p => p.1 == q.1)))

/-- Apply a committed transaction to the store, command by command. -/
def applyTx (st : Store) : List TxCommand → Store
  | [] => st
  | .unlinkKey k :: rest =>
      applyTx (fun k2 => if k2 = k then none else st k2) rest
  | .hSet k d :: rest =>
      applyTx
        (fun k2 => if k2 = k then some (hashMerge ((st k).getD []) d) else st k2)
        rest

/-- The error class name the redis client gives a watch abort. -/
def watchErrorName : String := "WatchError"

/-- The message of the shim's distinguished write-conflict error. -/
def watchErrorMessage : String := "Watch error when setting HASH."

/-- The shim's distinguished error type (`RedisError` in the source). -/
structure RedisError where
  message : String
deriving Repr, DecidableEq

/-- A failure surfaced by the underlying transport/client; `name` is the
JavaScript error class name (`WatchError` when the watched key was
concurrently modified before the commit). -/
structure TransportError where
  name : String
deriving Repr, DecidableEq

/-- What a caller of `hsetall` can catch. -/
inductive ShimError where
  | redisError (e : RedisError)
  | transport (e : TransportError)
deriving Repr, DecidableEq

/-- Lines 34-48: `hsetall` — the session run it performs, and its error
handling given the outcome of that run: success passes through, a
`WatchError` becomes the distinguished `RedisError`, and any other
failure is rethrown unchanged. -/
def hsetall (key : String) (data : List (String × String))
    (outcome : Except TransportError Unit) :
    SessionRun × Except ShimError Unit :=
  (hsetallRun key data,
    match outcome with
    | .ok _ => .ok ()
    | .error e =>
        if e.name = watchErrorName then .error (.redisError ⟨watchErrorMessage⟩)
        else .error (.transport e))

/-! ## Claims -/

/-- C3: in encode, for a field whose declared type is not string-array, a
path resolving to more than one location aborts the conversion with the
cardinality-mismatch error naming the path, and the whole `toRedisJson`
call returns that error rather than any partial document. -/
theorem claim_C3_encode_multi_cardinality_error (json : JVal) (name : String)
    (fd : FieldDefinition) (r1 r2 : List JKey × JVal) (rs : List (List JKey × JVal))
    (hty : fd.type ≠ .stringArray)
    (hres : resolvePath (fd.path.getD (defaultPath name)) json = r1 :: r2 :: rs) :
    convertToRedisJsonKnownField json name fd =
      .error (.pointsToMany (fd.path.getD (defaultPath name))) ∧
    toRedisJson ⟨[(name, fd)]⟩ json =
      .error (.pointsToMany (fd.path.getD (defaultPath name))) := by
  have hfield : convertToRedisJsonKnownField json name fd =
      .error (.pointsToMany (fd.path.getD (defaultPath name))) := by
    simp only [convertToRedisJsonKnownField, hres]
    simp [convertKnownResultsToJson, hty]
  refine ⟨hfield, ?_⟩
  simp [toRedisJson, convertToRedisJsonKnown, hfield]

/-- Witness for C3: a number-typed field whose wildcard path matches two
array elements produces the cardinality error naming that path. -/
theorem claim_C3_encode_multi_cardinality_error_witness :
    convertToRedisJsonKnownField (.obj [("a", .arr [.num 5, .num 6])]) "f"
      ⟨.number, some ⟨.child "a", [.wildcard]⟩⟩ =
      .error (.pointsToMany ⟨.child "a", [.wildcard]⟩) ∧
    toRedisJson ⟨[("f", ⟨.number, some ⟨.child "a", [.wildcard]⟩⟩)]⟩
      (.obj [("a", .arr [.num 5, .num 6])]) =
      .error (.pointsToMany ⟨.child "a", [.wildcard]⟩) :=
  claim_C3_encode_multi_cardinality_error (.obj [("a", .arr [.num 5, .num 6])])
    "f" ⟨.number, some ⟨.child "a", [.wildcard]⟩⟩
    ([.fld "a", .idx 0], .num 5) ([.fld "a", .idx 1], .num 6) []
    (by simp) rfl

/-- C2 counterexample: decoding a date-typed field whose path matches two
stored numbers leaves the document completely unchanged — the first match
is NOT rewritten to the date value the claim predicts. -/
theorem claim_C2_counterexample :
    fromRedisJson ⟨[("f", ⟨.date, some ⟨.child "a", [.wildcard]⟩⟩)]⟩
      (.obj [("a", .arr [.num 5, .num 6])]) =
      .ok (.obj [("a", .arr [.num 5, .num 6])]) ∧
    convertKnownValueFromJson ⟨.date, some ⟨.child "a", [.wildcard]⟩⟩ (.num 5) =
      .ok (.date 5) ∧
    setLoc (.obj [("a", .arr [.num 5, .num 6])]) [.fld "a", .idx 0] (.date 5) =
      .obj [("a", .arr [.date 5, .num 6])] ∧
    (Except.ok (.obj [("a", .arr [.num 5, .num 6])]) :
        Except ConvErr JVal) ≠
      .ok (.obj [("a", .arr [.date 5, .num 6])]) := by
  refine ⟨rfl, rfl, rfl, ?_⟩
  simp

/-- C2 as amended: in decode, when a field's path resolves to more than one
match and the field's declared type is not string-array, no error is
raised and no match at all is rewritten — the document is returned
unchanged by that field's processing. -/
theorem claim_C2_decode_multi_no_rewrite (data : JVal) (name : String)
    (fd : FieldDefinition) (r1 r2 : List JKey × JVal) (rs : List (List JKey × JVal))
    (hty : fd.type ≠ .stringArray)
    (hres : resolvePath (fd.path.getD (defaultPath name)) data = r1 :: r2 :: rs) :
    convertFromRedisJsonKnownField data name fd = .ok data := by
  simp only [convertFromRedisJsonKnownField, hres]
  simp [hty]

/-- Witness for the amended C2: decoding a date-typed field whose path
matches two stored numbers returns the document unchanged. -/
theorem claim_C2_decode_multi_no_rewrite_witness :
    convertFromRedisJsonKnownField (.obj [("a", .arr [.num 5, .num 6])]) "f"
      ⟨.date, some ⟨.child "a", [.wildcard]⟩⟩ =
      .ok (.obj [("a", .arr [.num 5, .num 6])]) :=
  claim_C2_decode_multi_no_rewrite (.obj [("a", .arr [.num 5, .num 6])]) "f"
    ⟨.date, some ⟨.child "a", [.wildcard]⟩⟩
    ([.fld "a", .idx 0], .num 5) ([.fld "a", .idx 1], .num 6) []
    (by simp) rfl

/-- C4: when the transaction run of `hsetall` fails with the client's
watch-abort error, the caller receives the shim's distinguished, catchable
`RedisError`; any other transport failure propagates to the caller
unchanged. -/
theorem claim_C4_watch_conflict_error (key : String)
    (data : List (String × String)) (e : TransportError) :
    (e.name = watchErrorName →
      (hsetall key data (.error e)).2 =
        .error (.redisError ⟨watchErrorMessage⟩)) ∧
    (e.name ≠ watchErrorName →
      (hsetall key data (.error e)).2 = .error (.transport e)) := by
  constructor
  · intro h
    simp [hsetall, h]
  · intro h
    simp [hsetall, h]

/-- Witness for C4: a `WatchError` becomes the distinguished error; a
different transport error propagates unchanged. -/
theorem claim_C4_watch_conflict_error_witness :
    (hsetall "k" [("a", "1")] (.error ⟨"WatchError"⟩)).2 =
      .error (.redisError ⟨watchErrorMessage⟩) ∧
    (hsetall "k" [("a", "1")] (.error ⟨"ConnectionError"⟩)).2 =
      .error (.transport ⟨"ConnectionError"⟩) :=
  ⟨(claim_C4_watch_conflict_error "k" [("a", "1")] ⟨"WatchError"⟩).1 rfl,
    (claim_C4_watch_conflict_error "k" [("a", "1")] ⟨"ConnectionError"⟩).2
      (by simp [watchErrorName])⟩

/-- C5: `hsetall` runs, on a single isolated session, a watch on the key
followed by one committed transaction queueing a delete of the key and
then the flattened-field write, in that order; executing that queued
transaction against any prior store leaves the key holding exactly the new
field map (old fields do not survive) and every other key untouched. -/
theorem claim_C5_hsetall_protocol (key : String)
    (data : List (String × String)) (st : Store) :
    (hsetall key data (.ok ())).1.isolatedSession = true ∧
    (hsetall key data (.ok ())).1.commands =
      [.watch key, .multiExec [.unlinkKey key, .hSet key data]] ∧
    applyTx st (queuedTx (hsetall key data (.ok ())).1.commands) key =
      some data ∧
    (∀ k, k ≠ key →
      applyTx st (queuedTx (hsetall key data (.ok ())).1.commands) k = st k) := by
  refine ⟨rfl, rfl, ?_, ?_⟩
  · simp [hsetall, hsetallRun, queuedTx, applyTx, hashMerge]
  · intro k hk
    simp [hsetall, hsetallRun, queuedTx, applyTx, hashMerge, hk]

/-- Witness for C5: replacing a two-field record that previously held a
different field map leaves exactly the new fields at the key and leaves
another key untouched. -/
theorem claim_C5_hsetall_protocol_witness :
    (applyTx
        (fun k => if k = "k" then some [("old", "x")] else
          if k = "other" then some [("p", "q")] else none)
        (queuedTx (hsetall "k" [("a", "1"), ("b", "2")] (.ok ())).1.commands)
        "k" = some [("a", "1"), ("b", "2")]) ∧
    ("other" ≠ "k" ∧
      applyTx
        (fun k => if k = "k" then some [("old", "x")] else
          if k = "other" then some [("p", "q")] else none)
        (queuedTx (hsetall "k" [("a", "1"), ("b", "2")] (.ok ())).1.commands)
        "other" = some [("p", "q")]) := by
  have h := claim_C5_hsetall_protocol "k" [("a", "1"), ("b", "2")]
    (fun k => if k = "k" then some [("old", "x")] else
      if k = "other" then some [("p", "q")] else none)
  refine ⟨h.2.2.1, by simp, ?_⟩
  have h2 := h.2.2.2 "other" (by simp)
  simpa using h2

/-- The application-document shape of each declared type: boolean, number,
Date object, geo-point object, string, and array of strings. -/
def validShape : FieldType → JVal → Bool
  | .boolean, .bool _ => true
  | .number, .num _ => true
  | .date, .date _ => true
  | .point, .point _ _ => true
  | .string, .str _ => true
  | .text, .str _ => true
  | .stringArray, .arr xs =>
      xs.all (fun x => match x with | .str _ => true | _ => false)
  | _, _ => false

theorem resolve_default_single (f : String) (w : JVal) :
    resolvePath (defaultPath f) (.obj [(f, w)]) = [([.fld f], w)] := by
  simp [resolvePath, defaultPath, resolveSteps, resolveStep, lookupField]

theorem setLoc_single (f : String) (v w : JVal) :
    setLoc (.obj [(f, v)]) [.fld f] w = .obj [(f, w)] := by
  simp [setLoc, getKey, setKey, setField, hasField, lookupField]

theorem getLoc_single (f : String) (v : JVal) :
    getLoc (.obj [(f, v)]) [.fld f] = some v := by
  simp [getLoc, getKey, lookupField]

theorem toRedisJson_single (f : String) (ft : FieldType) (v w w2 : JVal)
    (hv : isUndefined v = false)
    (hc : convertKnownValueToJson ft v = .ok w)
    (hw : isUndefined w = false) (hwo : isObject w = false)
    (hw2 : convertUnknownValueToJson w = w2) :
    toRedisJson ⟨[(f, ⟨ft, none⟩)]⟩ (.obj [(f, v)]) = .ok (.obj [(f, w2)]) := by
  simp [toRedisJson, convertToRedisJsonKnown, convertToRedisJsonKnownField,
    resolve_default_single, convertKnownResultToJson, isDefined, hv, hc,
    setLoc_single, convertToRedisJsonUnknown, convertToRedisJsonUnknownFields,
    hw, hwo, hw2]

theorem fromRedisJson_single (f : String) (ft : FieldType) (w u : JVal)
    (hc : convertKnownValueFromJson ⟨ft, none⟩ w = .ok u) :
    fromRedisJson ⟨[(f, ⟨ft, none⟩)]⟩ (.obj [(f, w)]) = .ok (.obj [(f, u)]) := by
  simp [fromRedisJson, convertFromRedisJsonKnown, convertFromRedisJsonKnownField,
    resolve_default_single, hc, setLoc_single]

theorem convArrToStrGo_all_str (orig : JVal) (xs : List JVal)
    (h : ∀ x ∈ xs, isString x = true) :
    convArrToStrGo orig xs = .ok (xs.map jsToString) ∧
    (xs.map jsToString).map JVal.str = xs := by
  induction xs with
  | nil => exact ⟨rfl, rfl⟩
  | cons x rest ih =>
      have hx : isString x = true := h x (List.mem_cons_self x rest)
      have hrest := ih (fun y hy => h y (List.mem_cons_of_mem x hy))
      cases x <;> simp [isString] at hx
      simp [convArrToStrGo, isNull, isUndefined, hrest.1, jsToString, hrest.2]

theorem convFromArrToStrGo_all_str (orig : JVal) (xs : List JVal)
    (h : ∀ x ∈ xs, isString x = true) :
    convFromArrToStrGo orig xs = .ok (xs.map jsToString) ∧
    (xs.map jsToString).map JVal.str = xs := by
  induction xs with
  | nil => exact ⟨rfl, rfl⟩
  | cons x rest ih =>
      have hx : isString x = true := h x (List.mem_cons_self x rest)
      have hrest := ih (fun y hy => h y (List.mem_cons_of_mem x hy))
      cases x <;> simp [isString] at hx
      simp [convFromArrToStrGo, isNull, isUndefined, hrest.1, jsToString, hrest.2]

/-- C1: for every declared type and every value of the application shape
for that type, encoding a single-field document and decoding the result
yields the original value back at the field — exactly, since the model
compares dates by their epoch seconds and points by their coordinates. -/
theorem claim_C1_roundtrip (ft : FieldType) (f : String) (v : JVal)
    (h : validShape ft v = true) :
    ∃ stored decoded,
      toRedisJson ⟨[(f, ⟨ft, none⟩)]⟩ (.obj [(f, v)]) = .ok stored ∧
      fromRedisJson ⟨[(f, ⟨ft, none⟩)]⟩ stored = .ok decoded ∧
      getLoc decoded [.fld f] = some v := by
  cases ft with
  | boolean =>
      cases v <;> simp [validShape] at h
      case bool b =>
        exact ⟨_, _, toRedisJson_single f .boolean (.bool b) (.bool b) (.bool b)
          rfl rfl rfl rfl rfl,
          fromRedisJson_single f .boolean (.bool b) (.bool b) rfl,
          getLoc_single f (.bool b)⟩
  | number =>
      cases v <;> simp [validShape] at h
      case num n =>
        exact ⟨_, _, toRedisJson_single f .number (.num n) (.num n) (.num n)
          rfl rfl rfl rfl rfl,
          fromRedisJson_single f .number (.num n) (.num n) rfl,
          getLoc_single f (.num n)⟩
  | date =>
      cases v <;> simp [validShape] at h
      case date t =>
        exact ⟨_, _, toRedisJson_single f .date (.date t) (.num t) (.num t)
          rfl rfl rfl rfl rfl,
          fromRedisJson_single f .date (.num t) (.date t) rfl,
          getLoc_single f (.date t)⟩
  | point =>
      cases v <;> simp [validShape] at h
      case point lon lat =>
        refine ⟨_, _, toRedisJson_single f .point (.point lon lat)
          (.str (convertPointToString lon lat)) (.str (convertPointToString lon lat))
          rfl rfl rfl rfl rfl, fromRedisJson_single f .point
          (.str (convertPointToString lon lat)) (.point lon lat) ?_,
          getLoc_single f (.point lon lat)⟩
        simp [convertKnownValueFromJson, isNull,
          convertStringToPoint_convertPointToString]
  | string =>
      cases v <;> simp [validShape] at h
      case str s =>
        exact ⟨_, _, toRedisJson_single f .string (.str s) (.str s) (.str s)
          rfl rfl rfl rfl rfl,
          fromRedisJson_single f .string (.str s) (.str s) rfl,
          getLoc_single f (.str s)⟩
  | text =>
      cases v <;> simp [validShape] at h
      case str s =>
        exact ⟨_, _, toRedisJson_single f .text (.str s) (.str s) (.str s)
          rfl rfl rfl rfl rfl,
          fromRedisJson_single f .text (.str s) (.str s) rfl,
          getLoc_single f (.str s)⟩
  | stringArray =>
      cases v <;> simp [validShape] at h
      case arr xs =>
        have hstr : ∀ x ∈ xs, isString x = true := by
          intro x hx
          have := h x hx
          cases x <;> simp_all [isString]
        have henc := convArrToStrGo_all_str (.arr xs) xs hstr
        have hdec := convFromArrToStrGo_all_str (.arr xs) xs hstr
        refine ⟨_, _, toRedisJson_single f .stringArray (.arr xs) (.arr xs)
          (.arr xs) rfl ?_ rfl rfl rfl,
          fromRedisJson_single f .stringArray (.arr xs) (.arr xs) ?_,
          getLoc_single f (.arr xs)⟩
        · simp [convertKnownValueToJson, isNull, convertArrayToStringArray,
            henc.1, henc.2]
        · simp [convertKnownValueFromJson, isNull,
            convertFromJsonArrayToStringArray, hdec.1, hdec.2]

/-- Witness for C1: a geo-point round-trips through its canonical
`"lon,lat"` store string. -/
theorem claim_C1_roundtrip_witness :
    validShape .point (.point 12 (-34)) = true ∧
    ∃ stored decoded,
      toRedisJson ⟨[("f", ⟨.point, none⟩)]⟩ (.obj [("f", .point 12 (-34))]) =
        .ok stored ∧
      fromRedisJson ⟨[("f", ⟨.point, none⟩)]⟩ stored = .ok decoded ∧
      getLoc decoded [.fld "f"] = some (.point 12 (-34)) :=
  ⟨rfl, claim_C1_roundtrip .point "f" (.point 12 (-34)) rfl⟩

theorem convArrToStrGo_null (orig : JVal) (xs : List JVal)
    (hnull : JVal.null ∈ xs) (hundef : JVal.undef ∉ xs) :
    convArrToStrGo orig xs = .error (.nullInArray orig) := by
  induction xs with
  | nil => cases hnull
  | cons x rest ih =>
      rcases List.mem_cons.mp hnull with rfl | hmem
      · simp [convArrToStrGo, isNull]
      · have hxu : x ≠ JVal.undef := fun hx => hundef (hx ▸ List.mem_cons_self x rest)
        have hru : JVal.undef ∉ rest := fun hr => hundef (List.mem_cons_of_mem x hr)
        by_cases hxn : isNull x = true
        · simp [convArrToStrGo, hxn]
        · have hxu2 : isUndefined x = false := by
            cases x <;> simp_all [isUndefined]
          simp [convArrToStrGo, hxn, hxu2, ih hmem hru]

theorem convFromArrToStrGo_null (orig : JVal) (xs : List JVal)
    (hnull : JVal.null ∈ xs) (hundef : JVal.undef ∉ xs) :
    convFromArrToStrGo orig xs = .error (.nullInArrayFromJson orig) := by
  induction xs with
  | nil => cases hnull
  | cons x rest ih =>
      rcases List.mem_cons.mp hnull with rfl | hmem
      · simp [convFromArrToStrGo, isNull]
      · have hxu : x ≠ JVal.undef := fun hx => hundef (hx ▸ List.mem_cons_self x rest)
        have hru : JVal.undef ∉ rest := fun hr => hundef (List.mem_cons_of_mem x hr)
        by_cases hxn : isNull x = true
        · simp [convFromArrToStrGo, hxn]
        · have hxu2 : isUndefined x = false := by
            cases x <;> simp_all [isUndefined]
          simp [convFromArrToStrGo, hxn, hxu2, ih hmem hru]

theorem convertKnownResultsToJsonGo_null (json : JVal)
    (ms : List (List JKey × JVal))
    (hex : ∃ m ∈ ms, isNull m.2 = true)
    (hall : ∀ m ∈ ms, isNull m.2 = true ∨
      (isBoolean m.2 || isNumber m.2 || isString m.2) = true) :
    ∃ parent, convertKnownResultsToJsonGo json ms =
      .error (.nullInContainer parent) := by
  induction ms generalizing json with
  | nil => simp at hex
  | cons m rest ih =>
      by_cases hmn : isNull m.2 = true
      · exact ⟨(getLoc json m.1.dropLast).getD .null,
          by simp [convertKnownResultsToJsonGo, hmn]⟩
      · have hstr : (isBoolean m.2 || isNumber m.2 || isString m.2) = true := by
          rcases hall m (List.mem_cons_self m rest) with h | h
          · exact absurd h hmn
          · exact h
        have hex2 : ∃ m2 ∈ rest, isNull m2.2 = true := by
          rcases hex with ⟨m0, hm0, hm0n⟩
          rcases List.mem_cons.mp hm0 with rfl | hmem
          · exact absurd hm0n hmn
          · exact ⟨m0, hmem, hm0n⟩
        have hall2 : ∀ m2 ∈ rest, isNull m2.2 = true ∨
            (isBoolean m2.2 || isNumber m2.2 || isString m2.2) = true :=
          fun m2 hm2 => hall m2 (List.mem_cons_of_mem m hm2)
        rcases hm : m.2 with _ | _ | b | n | s | t | lon | ys | fs <;>
          simp [hm, isBoolean, isNumber, isString] at hstr <;>
          simpa [convertKnownResultsToJsonGo, hm, isNull, isUndefined,
            isDefined, convertKnownValueToString, isBoolean, isNumber,
            isString] using ih _ hex2 hall2

theorem convertFromRedisJsonMultiGo_null (json : JVal)
    (ms : List (List JKey × JVal))
    (hex : ∃ m ∈ ms, isNull m.2 = true)
    (hall : ∀ m ∈ ms, isNull m.2 = true ∨
      (isBoolean m.2 || isNumber m.2 || isString m.2) = true) :
    ∃ parent, convertFromRedisJsonMultiGo json ms =
      .error (.nullInContainerFromJson parent) := by
  induction ms generalizing json with
  | nil => simp at hex
  | cons m rest ih =>
      by_cases hmn : isNull m.2 = true
      · exact ⟨(getLoc json m.1.dropLast).getD .null,
          by simp [convertFromRedisJsonMultiGo, hmn]⟩
      · have hstr : (isBoolean m.2 || isNumber m.2 || isString m.2) = true := by
          rcases hall m (List.mem_cons_self m rest) with h | h
          · exact absurd h hmn
          · exact h
        have hex2 : ∃ m2 ∈ rest, isNull m2.2 = true := by
          rcases hex with ⟨m0, hm0, hm0n⟩
          rcases List.mem_cons.mp hm0 with rfl | hmem
          · exact absurd hm0n hmn
          · exact ⟨m0, hmem, hm0n⟩
        have hall2 : ∀ m2 ∈ rest, isNull m2.2 = true ∨
            (isBoolean m2.2 || isNumber m2.2 || isString m2.2) = true :=
          fun m2 hm2 => hall m2 (List.mem_cons_of_mem m hm2)
        rcases hm : m.2 with _ | _ | b | n | s | t | lon | ys | fs <;>
          simp [hm, isBoolean, isNumber, isString] at hstr <;>
          simpa [convertFromRedisJsonMultiGo, hm, isNull,
            convertKnownValueToString, isBoolean, isNumber,
            isString] using ih _ hex2 hall2

theorem convertKnownResultsToJsonGo_aborts (json : JVal)
    (ms : List (List JKey × JVal))
    (hex : ∃ m ∈ ms, isNull m.2 = true) :
    ∃ e, convertKnownResultsToJsonGo json ms = .error e := by
  induction ms generalizing json with
  | nil => simp at hex
  | cons m rest ih =>
      by_cases hmn : isNull m.2 = true
      · exact ⟨.nullInContainer ((getLoc json m.1.dropLast).getD .null),
          by simp [convertKnownResultsToJsonGo, hmn]⟩
      · have hex2 : ∃ m2 ∈ rest, isNull m2.2 = true := by
          rcases hex with ⟨m0, hm0, hm0n⟩
          rcases List.mem_cons.mp hm0 with rfl | hmem
          · exact absurd hm0n hmn
          · exact ⟨m0, hmem, hm0n⟩
        by_cases hcond : (isUndefined m.2 &&
            isArray ((getLoc json m.1.dropLast).getD .null)) = true
        · exact ⟨.undefInArrayContainer ((getLoc json m.1.dropLast).getD .null),
            by simp [convertKnownResultsToJsonGo, hmn, hcond]⟩
        · by_cases hdef : isDefined m.2 = true
          · rcases hconv : convertKnownValueToString m.2 with e | w
            · exact ⟨e, by simp [convertKnownResultsToJsonGo, hmn, hcond,
                hdef, hconv]⟩
            · rcases ih (setLoc json m.1 w) hex2 with ⟨e, he⟩
              exact ⟨e, by simp [convertKnownResultsToJsonGo, hmn, hcond,
                hdef, hconv, he]⟩
          · rcases ih json hex2 with ⟨e, he⟩
            exact ⟨e, by simp [convertKnownResultsToJsonGo, hmn, hcond,
              hdef, he]⟩

theorem convertFromRedisJsonMultiGo_aborts (json : JVal)
    (ms : List (List JKey × JVal))
    (hex : ∃ m ∈ ms, isNull m.2 = true) :
    ∃ e, convertFromRedisJsonMultiGo json ms = .error e := by
  induction ms generalizing json with
  | nil => simp at hex
  | cons m rest ih =>
      by_cases hmn : isNull m.2 = true
      · exact ⟨.nullInContainerFromJson ((getLoc json m.1.dropLast).getD .null),
          by simp [convertFromRedisJsonMultiGo, hmn]⟩
      · have hex2 : ∃ m2 ∈ rest, isNull m2.2 = true := by
          rcases hex with ⟨m0, hm0, hm0n⟩
          rcases List.mem_cons.mp hm0 with rfl | hmem
          · exact absurd hm0n hmn
          · exact ⟨m0, hmem, hm0n⟩
        rcases hconv : convertKnownValueToString m.2 with e | w
        · exact ⟨e, by simp [convertFromRedisJsonMultiGo, hmn, hconv]⟩
        · rcases ih (setLoc json m.1 w) hex2 with ⟨e, he⟩
          exact ⟨e, by simp [convertFromRedisJsonMultiGo, hmn, hconv, he]⟩

/-- C7: a null among a string-array field's matches, or among the elements
of its matched array, is fatal in both directions.  In the multi-match
loops a null match (among matches of otherwise stringifiable shape) aborts
with the null-in-array error carrying the offending element's container,
and any null among the matches aborts the conversion with some error, so
no partial result is ever returned; in the single-match case an array
containing null (and no undefined, which a different error catches first
on encode) aborts with the null-in-array error carrying the offending
element's containing array. -/
theorem claim_C7_null_in_array_fatal :
    (∀ (json : JVal) (ms : List (List JKey × JVal)),
      (∃ m ∈ ms, isNull m.2 = true) →
      (∀ m ∈ ms, isNull m.2 = true ∨
        (isBoolean m.2 || isNumber m.2 || isString m.2) = true) →
      ∃ parent, convertKnownResultsToJsonGo json ms =
        .error (.nullInContainer parent)) ∧
    (∀ (json : JVal) (ms : List (List JKey × JVal)),
      (∃ m ∈ ms, isNull m.2 = true) →
      ∃ e, convertKnownResultsToJsonGo json ms = .error e) ∧
    (∀ xs : List JVal, JVal.null ∈ xs → JVal.undef ∉ xs →
      convertKnownValueToJson .stringArray (.arr xs) =
        .error (.nullInArray (.arr xs))) ∧
    (∀ (json : JVal) (ms : List (List JKey × JVal)),
      (∃ m ∈ ms, isNull m.2 = true) →
      (∀ m ∈ ms, isNull m.2 = true ∨
        (isBoolean m.2 || isNumber m.2 || isString m.2) = true) →
      ∃ parent, convertFromRedisJsonMultiGo json ms =
        .error (.nullInContainerFromJson parent)) ∧
    (∀ (json : JVal) (ms : List (List JKey × JVal)),
      (∃ m ∈ ms, isNull m.2 = true) →
      ∃ e, convertFromRedisJsonMultiGo json ms = .error e) ∧
    (∀ (fd : FieldDefinition) (xs : List JVal), fd.type = .stringArray →
      JVal.null ∈ xs → JVal.undef ∉ xs →
      convertKnownValueFromJson fd (.arr xs) =
        .error (.nullInArrayFromJson (.arr xs))) := by
  refine ⟨convertKnownResultsToJsonGo_null, convertKnownResultsToJsonGo_aborts,
    ?_, convertFromRedisJsonMultiGo_null, convertFromRedisJsonMultiGo_aborts, ?_⟩
  · intro xs hnull hundef
    simp [convertKnownValueToJson, isNull, convertArrayToStringArray,
      convArrToStrGo_null (.arr xs) xs hnull hundef]
  · intro fd xs hty hnull hundef
    simp [convertKnownValueFromJson, isNull, hty,
      convertFromJsonArrayToStringArray,
      convFromArrToStrGo_null (.arr xs) xs hnull hundef]

/-- Witness for C7: a null among two wildcard matches aborts encode with
the null-in-array error, and a single matched array containing a null
aborts both encode and decode with the null-in-array error carrying the
array. -/
theorem claim_C7_null_in_array_fatal_witness :
    (∃ parent, convertKnownResultsToJsonGo (.obj [("a", .arr [.str "x", .null])])
      [([.fld "a", .idx 0], .str "x"), ([.fld "a", .idx 1], .null)] =
      .error (.nullInContainer parent)) ∧
    convertKnownValueToJson .stringArray (.arr [.num 1, .null]) =
      .error (.nullInArray (.arr [.num 1, .null])) ∧
    convertKnownValueFromJson ⟨.stringArray, none⟩ (.arr [.num 1, .null]) =
      .error (.nullInArrayFromJson (.arr [.num 1, .null])) :=
  ⟨claim_C7_null_in_array_fatal.1 (.obj [("a", .arr [.str "x", .null])])
      [([.fld "a", .idx 0], .str "x"), ([.fld "a", .idx 1], .null)]
      ⟨([.fld "a", .idx 1], .null), by simp, rfl⟩
      (by
        intro m hm
        simp only [List.mem_cons, List.not_mem_nil, or_false] at hm
        rcases hm with rfl | rfl <;> simp [isNull, isString]),
    claim_C7_null_in_array_fatal.2.2.1 [.num 1, .null] (by simp) (by simp),
    claim_C7_null_in_array_fatal.2.2.2.2.2 ⟨.stringArray, none⟩ [.num 1, .null]
      rfl (by simp) (by simp)⟩

/-! ### Toward C6: the known-fields pass cannot revive an undefined key -/

/-- The top-level property-name uniqueness JavaScript objects guarantee
(the model's association lists can express duplicates; real documents
cannot). -/
def topNodup (j : JVal) : Prop :=
  match j with
  | .obj fs => (fs.map Prod.fst).Nodup
  | _ => True

theorem lookupField_eq_none_of_not_mem (fs : List (String × JVal)) (k : String)
    (h : k ∉ fs.map Prod.fst) : lookupField fs k = none := by
  induction fs with
  | nil => rfl
  | cons p rest ih =>
      obtain ⟨k1, v1⟩ := p
      simp only [List.map_cons, List.mem_cons, not_or] at h
      simp [lookupField, Ne.symm h.1, ih h.2]

theorem lookupField_mem_of_nodup (fs : List (String × JVal)) (k : String)
    (v : JVal) (hnd : (fs.map Prod.fst).Nodup) (hmem : (k, v) ∈ fs) :
    lookupField fs k = some v := by
  induction fs with
  | nil => cases hmem
  | cons p rest ih =>
      obtain ⟨k1, v1⟩ := p
      simp only [List.map_cons, List.nodup_cons] at hnd
      rcases List.mem_cons.mp hmem with heq | hmem2
      · injection heq with h1 h2
        subst h1; subst h2
        simp [lookupField]
      · by_cases hk : k1 = k
        · subst hk
          exact absurd (List.mem_map.mpr ⟨(k1, v), hmem2, rfl⟩) hnd.1
        · simp [lookupField, hk, ih hnd.2 hmem2]

theorem lookupField_map_repl_ne (fs : List (String × JVal)) (s k : String)
    (v : JVal) (h : k ≠ s) :
    lookupField (fs.map (fun p => (p.1, if p.1 = s then v else p.2))) k =
      lookupField fs k := by
  induction fs with
  | nil => rfl
  | cons p rest ih =>
      obtain ⟨k1, v1⟩ := p
      by_cases hk : k1 = k
      · subst hk
        have h2 : k1 ≠ s := h
        simp [lookupField, h2]
      · simp [lookupField, hk, ih]

theorem lookupField_append_single_ne (fs : List (String × JVal))
    (s k : String) (v : JVal) (h : k ≠ s) :
    lookupField (fs ++ [(s, v)]) k = lookupField fs k := by
  induction fs with
  | nil => simp [lookupField, Ne.symm h]
  | cons p rest ih =>
      obtain ⟨k1, v1⟩ := p
      by_cases hk : k1 = k <;> simp [lookupField, hk, ih]

theorem lookupField_setField_ne (fs : List (String × JVal)) (s k : String)
    (v : JVal) (h : k ≠ s) :
    lookupField (setField fs s v) k = lookupField fs k := by
  unfold setField
  by_cases hany : hasField fs s = true
  · simp only [hany, if_true]
    exact lookupField_map_repl_ne fs s k v h
  · simp only [hany, Bool.false_eq_true, if_false]
    exact lookupField_append_single_ne fs s k v h

theorem lookupField_map_repl_self (fs : List (String × JVal)) (s : String)
    (v w : JVal) (hfound : lookupField fs s = some w) :
    lookupField (fs.map (fun p => (p.1, if p.1 = s then v else p.2))) s =
      some v := by
  induction fs with
  | nil => cases hfound
  | cons p rest ih =>
      obtain ⟨k1, v1⟩ := p
      by_cases h1 : k1 = s
      · subst h1
        simp [lookupField]
      · simp only [lookupField, h1, if_false] at hfound
        simp [lookupField, h1, ih hfound]

theorem hasField_of_lookupField_some (fs : List (String × JVal)) (s : String)
    (w : JVal) (h : lookupField fs s = some w) : hasField fs s = true := by
  induction fs with
  | nil => cases h
  | cons p rest ih =>
      obtain ⟨k1, v1⟩ := p
      by_cases h1 : k1 = s
      · simp [hasField, h1]
      · simp only [lookupField, h1, if_false] at h
        simp [hasField, h1, ih h]

theorem not_mem_of_hasField_false (fs : List (String × JVal)) (s : String)
    (h : hasField fs s = false) : s ∉ fs.map Prod.fst := by
  induction fs with
  | nil => simp
  | cons p rest ih =>
      obtain ⟨k1, v1⟩ := p
      by_cases h1 : k1 = s
      · simp [hasField, h1] at h
      · simp only [hasField, h1, if_false] at h
        simp [h1, ih h]
        exact fun hcon => h1 hcon.symm

theorem lookupField_setField_self (fs : List (String × JVal)) (s : String)
    (v w : JVal) (h : lookupField fs s = some w) :
    lookupField (setField fs s v) s = some v := by
  unfold setField
  simp only [hasField_of_lookupField_some fs s w h, if_true]
  exact lookupField_map_repl_self fs s v w h

theorem keys_map_repl (fs : List (String × JVal)) (s : String) (v : JVal) :
    (fs.map (fun p => (p.1, if p.1 = s then v else p.2))).map Prod.fst =
      fs.map Prod.fst := by
  induction fs with
  | nil => rfl
  | cons p rest ih =>
      obtain ⟨k1, v1⟩ := p
      simp [ih]

theorem keys_setField_nodup (fs : List (String × JVal)) (s : String)
    (v : JVal) (h : (fs.map Prod.fst).Nodup) :
    ((setField fs s v).map Prod.fst).Nodup := by
  unfold setField
  by_cases hany : hasField fs s = true
  · simpa [hany, keys_map_repl] using h
  · have hnot : s ∉ fs.map Prod.fst :=
      not_mem_of_hasField_false fs s (by simpa using hany)
    simp only [hany, Bool.false_eq_true, if_false, List.map_append]
    simp only [List.nodup_append, List.map_cons, List.map_nil,
      List.nodup_singleton, true_and, List.Disjoint]
    refine ⟨h, ?_⟩
    intro a ha hcon
    simp only [List.mem_singleton] at hcon
    exact hnot (hcon ▸ ha)

theorem getKey_setKey_ne (j : JVal) (k1 k2 : JKey) (x : JVal) (h : k1 ≠ k2) :
    getKey (setKey j k1 x) k2 = getKey j k2 := by
  cases j with
  | obj fs =>
      cases k1 with
      | fld s =>
          cases k2 with
          | fld k =>
              have hs : k ≠ s := by
                rintro rfl
                exact h rfl
              simp [getKey, setKey, lookupField_setField_ne fs s k x hs]
          | idx i => simp [getKey, setKey]
      | idx i => simp [getKey, setKey]
  | arr xs =>
      cases k1 with
      | fld s => cases k2 <;> simp [getKey, setKey]
      | idx i =>
          cases k2 with
          | fld s => simp [getKey, setKey]
          | idx i2 =>
              have hi : i ≠ i2 := by
                rintro rfl
                exact h rfl
              simp [getKey, setKey, List.getElem?_set_ne hi]
  | null => cases k1 <;> cases k2 <;> simp [getKey, setKey]
  | undef => cases k1 <;> cases k2 <;> simp [getKey, setKey]
  | bool b => cases k1 <;> cases k2 <;> simp [getKey, setKey]
  | num n => cases k1 <;> cases k2 <;> simp [getKey, setKey]
  | str s => cases k1 <;> cases k2 <;> simp [getKey, setKey]
  | date t => cases k1 <;> cases k2 <;> simp [getKey, setKey]
  | point a b => cases k1 <;> cases k2 <;> simp [getKey, setKey]

theorem getKey_setKey_self (j : JVal) (k1 : JKey) (x w : JVal)
    (h : getKey j k1 = some w) : getKey (setKey j k1 x) k1 = some x := by
  cases j with
  | obj fs =>
      cases k1 with
      | fld s =>
          simp only [getKey] at h
          simp [getKey, setKey, lookupField_setField_self fs s x w h]
      | idx i => simp [getKey] at h
  | arr xs =>
      cases k1 with
      | fld s => simp [getKey] at h
      | idx i =>
          simp only [getKey] at h
          rcases List.get?_eq_some.mp h with ⟨hlt, _⟩
          simp [getKey, setKey, List.getElem?_set_eq_of_lt x hlt]
  | null => cases k1 <;> simp [getKey] at h
  | undef => cases k1 <;> simp [getKey] at h
  | bool b => cases k1 <;> simp [getKey] at h
  | num n => cases k1 <;> simp [getKey] at h
  | str s => cases k1 <;> simp [getKey] at h
  | date t => cases k1 <;> simp [getKey] at h
  | point a b => cases k1 <;> simp [getKey] at h

theorem getKey_fld_setLoc (j : JVal) (loc : List JKey) (v : JVal) (k : String)
    (hk : getKey j (.fld k) = some .undef)
    (h0 : loc ≠ []) (h1 : loc ≠ [.fld k]) :
    getKey (setLoc j loc v) (.fld k) = some .undef := by
  match loc with
  | [] => exact absurd rfl h0
  | k1 :: rest =>
      cases hget : getKey j k1 with
      | none => simpa [setLoc, hget] using hk
      | some c =>
          simp only [setLoc, hget]
          by_cases hk1 : k1 = JKey.fld k
          · subst hk1
            have hc : c = JVal.undef := Option.some.inj (hget.symm.trans hk)
            subst hc
            match rest with
            | [] => exact absurd rfl h1
            | r :: rs =>
                have hnone : getKey JVal.undef r = none := by cases r <;> rfl
                have hstay : setLoc JVal.undef (r :: rs) v = JVal.undef := by
                  simp [setLoc, hnone]
                rw [hstay]
                exact getKey_setKey_self j (.fld k) JVal.undef JVal.undef hget
          · rw [getKey_setKey_ne j k1 (.fld k) _ hk1]
            exact hk

theorem topNodup_setLoc (j : JVal) (loc : List JKey) (v : JVal)
    (h0 : loc ≠ []) (h : topNodup j) : topNodup (setLoc j loc v) := by
  match loc with
  | [] => exact absurd rfl h0
  | k1 :: rest =>
      cases hget : getKey j k1 with
      | none => simpa [setLoc, hget] using h
      | some c =>
          simp only [setLoc, hget]
          cases j with
          | obj fs =>
              cases k1 with
              | fld s =>
                  simp only [topNodup] at h
                  simp only [setKey, topNodup]
                  exact keys_setField_nodup fs s _ h
              | idx i => simpa [setKey] using h
          | arr xs => cases k1 <;> simp [setKey, topNodup]
          | null => cases k1 <;> simpa [setKey] using h
          | undef => cases k1 <;> simpa [setKey] using h
          | bool b => cases k1 <;> simpa [setKey] using h
          | num n => cases k1 <;> simpa [setKey] using h
          | str s => cases k1 <;> simpa [setKey] using h
          | date t => cases k1 <;> simpa [setKey] using h
          | point a b => cases k1 <;> simpa [setKey] using h

theorem resolveSteps_length (steps : List JStep) (j : JVal) :
    ∀ m ∈ resolveSteps j steps, m.1.length = steps.length := by
  induction steps generalizing j with
  | nil =>
      intro m hm
      simp only [resolveSteps, List.mem_singleton] at hm
      subst hm; rfl
  | cons s rest ih =>
      intro m hm
      simp only [resolveSteps, List.mem_flatMap, List.mem_map] at hm
      rcases hm with ⟨kv, hkv, m2, hm2, rfl⟩
      simp [ih kv.2 m2 hm2]

theorem resolveStep_fld (j : JVal) (st : JStep) (k : String) (v1 : JVal)
    (hnd : topNodup j) (hmem : (JKey.fld k, v1) ∈ resolveStep j st) :
    getKey j (.fld k) = some v1 := by
  cases st with
  | child name =>
      cases j with
      | obj fs =>
          simp only [resolveStep] at hmem
          cases hl : lookupField fs name with
          | none => rw [hl] at hmem; cases hmem
          | some w =>
              rw [hl] at hmem
              simp only [List.mem_singleton] at hmem
              injection hmem with h1 h2
              injection h1 with h1
              subst h1; subst h2
              simp [getKey, hl]
      | null => simp [resolveStep] at hmem
      | undef => simp [resolveStep] at hmem
      | bool b => simp [resolveStep] at hmem
      | num n => simp [resolveStep] at hmem
      | str s2 => simp [resolveStep] at hmem
      | date t => simp [resolveStep] at hmem
      | point a b => simp [resolveStep] at hmem
      | arr xs => simp [resolveStep] at hmem
  | wildcard =>
      cases j with
      | obj fs =>
          simp only [resolveStep, List.mem_map] at hmem
          rcases hmem with ⟨p, hp, heq⟩
          injection heq with h1 h2
          injection h1 with h1
          have hpk : p = (k, v1) := by
            obtain ⟨p1, p2⟩ := p
            simp only at h1 h2
            simp [h1, h2]
          rw [hpk] at hp
          simp only [getKey]
          exact lookupField_mem_of_nodup fs k v1 (by simpa [topNodup] using hnd) hp
      | arr xs =>
          simp only [resolveStep, List.mem_map] at hmem
          rcases hmem with ⟨p, hp, heq⟩
          injection heq with h1 h2
          cases h1
      | null => simp [resolveStep] at hmem
      | undef => simp [resolveStep] at hmem
      | bool b => simp [resolveStep] at hmem
      | num n => simp [resolveStep] at hmem
      | str s2 => simp [resolveStep] at hmem
      | date t => simp [resolveStep] at hmem
      | point a b => simp [resolveStep] at hmem

theorem resolvePath_match_ne_nil (p : JPath) (j : JVal) :
    ∀ m ∈ resolvePath p j, m.1 ≠ [] := by
  intro m hm hcon
  have hlen := resolveSteps_length (p.head :: p.tail) j m hm
  rw [hcon] at hlen
  simp at hlen

theorem resolvePath_match_fld (p : JPath) (j : JVal) (k : String)
    (hnd : topNodup j) :
    ∀ m ∈ resolvePath p j, m.1 = [JKey.fld k] →
      getKey j (.fld k) = some m.2 := by
  intro m hm hloc
  have hlen := resolveSteps_length (p.head :: p.tail) j m hm
  rw [hloc] at hlen
  simp only [List.length_cons, List.length_nil] at hlen
  have htail : p.tail = [] := List.length_eq_zero.mp (by omega)
  unfold resolvePath at hm
  rw [htail] at hm
  simp only [resolveSteps, List.mem_flatMap, List.mem_map] at hm
  rcases hm with ⟨kv, hkv, m2, hm2, rfl⟩
  obtain ⟨kv1, kv2⟩ := kv
  simp only [resolveSteps, List.mem_singleton] at hm2
  subst hm2
  simp only [List.cons.injEq, and_true] at hloc
  subst hloc
  simpa using resolveStep_fld j p.head k kv2 hnd hkv

theorem go_preserve (k : String) (ms : List (List JKey × JVal)) :
    ∀ (json j2 : JVal),
      getKey json (.fld k) = some JVal.undef → topNodup json →
      (∀ m ∈ ms, m.1 ≠ [] ∧ (m.1 = [JKey.fld k] → m.2 = JVal.undef)) →
      convertKnownResultsToJsonGo json ms = .ok j2 →
      getKey j2 (.fld k) = some JVal.undef ∧ topNodup j2 := by
  induction ms with
  | nil =>
      intro json j2 h1 h2 _ hok
      simp only [convertKnownResultsToJsonGo] at hok
      injection hok with h
      subst h
      exact ⟨h1, h2⟩
  | cons m rest ih =>
      intro json j2 h1 h2 hms hok
      simp only [convertKnownResultsToJsonGo] at hok
      by_cases hmn : isNull m.2 = true
      · simp [hmn] at hok
      · by_cases hcond : (isUndefined m.2 &&
            isArray ((getLoc json m.1.dropLast).getD .null)) = true
        · simp [hmn, hcond] at hok
        · by_cases hdef : isDefined m.2 = true
          · rcases hconv : convertKnownValueToString m.2 with e | w
            · simp [hmn, hcond, hdef, hconv] at hok
            · simp only [hmn, hcond, hdef, hconv, Bool.false_eq_true,
                if_false, if_true] at hok
              have hm := hms m (List.mem_cons_self m rest)
              have hnefld : m.1 ≠ [JKey.fld k] := by
                intro hc
                have := hm.2 hc
                rw [this] at hdef
                simp [isDefined, isUndefined] at hdef
              exact ih (setLoc json m.1 w) j2
                (getKey_fld_setLoc json m.1 w k h1 hm.1 hnefld)
                (topNodup_setLoc json m.1 w hm.1 h2)
                (fun m2 hm2 => hms m2 (List.mem_cons_of_mem m hm2)) hok
          · simp only [hmn, hcond, hdef, Bool.false_eq_true, if_false] at hok
            exact ih json j2 h1 h2
              (fun m2 hm2 => hms m2 (List.mem_cons_of_mem m hm2)) hok

theorem field_preserve (k : String) (json j2 : JVal) (name : String)
    (fd : FieldDefinition)
    (h1 : getKey json (.fld k) = some JVal.undef) (h2 : topNodup json)
    (hok : convertToRedisJsonKnownField json name fd = .ok j2) :
    getKey j2 (.fld k) = some JVal.undef ∧ topNodup j2 := by
  cases hres : resolvePath (fd.path.getD (defaultPath name)) json with
  | nil =>
      simp only [convertToRedisJsonKnownField, hres] at hok
      injection hok with h
      subst h
      exact ⟨h1, h2⟩
  | cons r rs =>
      cases rs with
      | nil =>
          simp only [convertToRedisJsonKnownField, hres] at hok
          simp only [convertKnownResultToJson] at hok
          by_cases hdef : isDefined r.2 = true
          · rcases hconv : convertKnownValueToJson fd.type r.2 with e | w
            · simp [hdef, hconv] at hok
            · simp only [hdef, hconv, if_true] at hok
              injection hok with h
              subst h
              have hr : r ∈ resolvePath (fd.path.getD (defaultPath name)) json := by
                rw [hres]; exact List.mem_singleton.mpr rfl
              have hne := resolvePath_match_ne_nil _ json r hr
              have hnefld : r.1 ≠ [JKey.fld k] := by
                intro hc
                have := resolvePath_match_fld _ json k h2 r hr hc
                have hr2 : r.2 = JVal.undef := Option.some.inj (h1.symm.trans this).symm
                rw [hr2] at hdef
                simp [isDefined, isUndefined] at hdef
              exact ⟨getKey_fld_setLoc json r.1 w k h1 hne hnefld,
                topNodup_setLoc json r.1 w hne h2⟩
          · simp only [hdef, Bool.false_eq_true, if_false] at hok
            injection hok with h
            subst h
            exact ⟨h1, h2⟩
      | cons r2 rs2 =>
          simp only [convertToRedisJsonKnownField, hres] at hok
          simp only [convertKnownResultsToJson] at hok
          by_cases hty : fd.type = FieldType.stringArray
          · simp only [hty, if_true] at hok
            refine go_preserve k (r :: r2 :: rs2) json j2 h1 h2 ?_ hok
            intro m hm
            have hmem : m ∈ resolvePath (fd.path.getD (defaultPath name)) json := by
              rw [hres]; exact hm
            refine ⟨resolvePath_match_ne_nil _ json m hmem, ?_⟩
            intro hc
            have := resolvePath_match_fld _ json k h2 m hmem hc
            exact Option.some.inj (this.symm.trans h1)
          · simp [hty] at hok

theorem known_preserve (k : String) (schemaDef : List (String × FieldDefinition)) :
    ∀ (json j2 : JVal),
      getKey json (.fld k) = some JVal.undef → topNodup json →
      convertToRedisJsonKnown schemaDef json = .ok j2 →
      getKey j2 (.fld k) = some JVal.undef ∧ topNodup j2 := by
  induction schemaDef with
  | nil =>
      intro json j2 h1 h2 hok
      simp only [convertToRedisJsonKnown] at hok
      injection hok with h
      subst h
      exact ⟨h1, h2⟩
  | cons e rest ih =>
      intro json j2 h1 h2 hok
      obtain ⟨name, fd⟩ := e
      simp only [convertToRedisJsonKnown] at hok
      cases hfield : convertToRedisJsonKnownField json name fd with
      | error e2 => rw [hfield] at hok; cases hok
      | ok jmid =>
          rw [hfield] at hok
          have hmid := field_preserve k json jmid name fd h1 h2 hfield
          exact ih jmid j2 hmid.1 hmid.2 hok

theorem lookupField_unknownFields_none (fs : List (String × JVal)) (k : String)
    (h : lookupField fs k = none) :
    lookupField (convertToRedisJsonUnknownFields fs) k = none := by
  induction fs with
  | nil => rfl
  | cons p rest ih =>
      obtain ⟨k1, v1⟩ := p
      by_cases hk1 : k1 = k
      · simp [lookupField, hk1] at h
      · simp only [lookupField, hk1, if_false] at h
        by_cases hu : isUndefined v1 = true
        · simp [convertToRedisJsonUnknownFields, hu, ih h]
        · by_cases ho : isObject v1 = true
          · simp [convertToRedisJsonUnknownFields, hu, ho, lookupField,
              hk1, ih h]
          · simp [convertToRedisJsonUnknownFields, hu, ho, lookupField,
              hk1, ih h]

theorem lookupField_unknownFields_undef (fs : List (String × JVal))
    (k : String) (hnd : (fs.map Prod.fst).Nodup)
    (h : lookupField fs k = some JVal.undef) :
    lookupField (convertToRedisJsonUnknownFields fs) k = none := by
  induction fs with
  | nil => cases h
  | cons p rest ih =>
      obtain ⟨k1, v1⟩ := p
      simp only [List.map_cons, List.nodup_cons] at hnd
      by_cases hk1 : k1 = k
      · subst hk1
        simp only [lookupField, if_pos rfl] at h
        have hv : v1 = JVal.undef := Option.some.inj h
        subst hv
        have hrest : lookupField rest k1 = none :=
          lookupField_eq_none_of_not_mem rest k1 hnd.1
        simp only [convertToRedisJsonUnknownFields, isUndefined]
        exact lookupField_unknownFields_none rest k1 hrest
      · simp only [lookupField, hk1, if_false] at h
        by_cases hu : isUndefined v1 = true
        · simp [convertToRedisJsonUnknownFields, hu, ih hnd.2 h]
        · by_cases ho : isObject v1 = true
          · simp [convertToRedisJsonUnknownFields, hu, ho, lookupField,
              hk1, ih hnd.2 h]
          · simp [convertToRedisJsonUnknownFields, hu, ho, lookupField,
              hk1, ih hnd.2 h]

/-- C6: encoding an object whose key holds undefined removes that key from
the output document entirely: after a successful `toRedisJson` under any
schema, looking the key up in the result finds nothing — in particular the
key never reappears as null or any other value.  (The document's top-level
property names are assumed distinct, as JavaScript objects guarantee.) -/
theorem claim_C6_undefined_key_removed (schema : Schema)
    (fs : List (String × JVal)) (k : String) (out : JVal)
    (hnd : (fs.map Prod.fst).Nodup)
    (hundef : getKey (.obj fs) (.fld k) = some JVal.undef)
    (hok : toRedisJson schema (.obj fs) = .ok out) :
    getKey out (.fld k) = none := by
  unfold toRedisJson at hok
  cases hkn : convertToRedisJsonKnown schema.definition (.obj fs) with
  | error e => rw [hkn] at hok; cases hok
  | ok json1 =>
      rw [hkn] at hok
      injection hok with hout
      have hpres := known_preserve k schema.definition (.obj fs) json1
        hundef (by simpa [topNodup] using hnd) hkn
      cases json1 with
      | obj fs1 =>
          have hl : lookupField fs1 k = some JVal.undef := by
            simpa [getKey] using hpres.1
          have hnd1 : (fs1.map Prod.fst).Nodup := by
            simpa [topNodup] using hpres.2
          rw [← hout]
          simp only [convertToRedisJsonUnknown, getKey]
          exact lookupField_unknownFields_undef fs1 k hnd1 hl
      | null => simp [getKey] at hpres
      | undef => simp [getKey] at hpres
      | bool b => simp [getKey] at hpres
      | num n => simp [getKey] at hpres
      | str s => simp [getKey] at hpres
      | date t => simp [getKey] at hpres
      | point a b => simp [getKey] at hpres
      | arr xs => simp [getKey] at hpres

/-- Witness for C6: a key holding undefined next to a surviving key is
removed from the encoded output. -/
theorem claim_C6_undefined_key_removed_witness :
    getKey (JVal.obj [("h", .num 3)]) (.fld "g") = none :=
  claim_C6_undefined_key_removed ⟨[("f", ⟨.number, none⟩)]⟩
    [("g", .undef), ("h", .num 3)] "g" (.obj [("h", .num 3)])
    (by simp) rfl rfl

/-- C8: null passes through both directions for every declared type — the
encode and decode value conversions map null to null, and the encode
single-match write-back writes the null back in place rather than
dropping, coercing, or rejecting it. -/
theorem claim_C8_null_passthrough :
    (∀ ft : FieldType, convertKnownValueToJson ft .null = .ok .null) ∧
    (∀ fd : FieldDefinition, convertKnownValueFromJson fd .null = .ok .null) ∧
    (∀ (ft : FieldType) (json : JVal) (loc : List JKey),
      convertKnownResultToJson ft json (loc, .null) =
        .ok (setLoc json loc .null)) :=
  ⟨fun _ => rfl, fun _ => rfl, fun _ _ _ => rfl⟩

/-! ### Toward C10: the cleanup pass leaves no undefined and no raw Date -/

mutual

/-- The C10 invariant on a document: walking only through object-valued
keys (the positions the cleanup pass visits), no key holds undefined and
no key holds a raw `Date` value. -/
def cleanVal : JVal → Bool
  | .obj fs => cleanFields fs
  | _ => true

/-- The field-list form of the C10 invariant. -/
def cleanFields : List (String × JVal) → Bool
  | [] => true
  | (_, v) :: rest =>
      !(isUndefined v) && !(isDate v) && cleanVal v && cleanFields rest

end

mutual

theorem cleanVal_unknown (j : JVal) :
    cleanVal (convertToRedisJsonUnknown j) = true := by
  cases j with
  | obj fs =>
      simp only [convertToRedisJsonUnknown, cleanVal]
      exact cleanFields_unknown fs
  | null => rfl
  | undef => rfl
  | bool b => rfl
  | num n => rfl
  | str s => rfl
  | date t => rfl
  | point a b => rfl
  | arr xs => rfl

theorem cleanFields_unknown (fs : List (String × JVal)) :
    cleanFields (convertToRedisJsonUnknownFields fs) = true := by
  match fs with
  | [] => rfl
  | (k, v) :: rest =>
      cases v with
      | undef =>
          simp only [convertToRedisJsonUnknownFields, isUndefined, if_true]
          exact cleanFields_unknown rest
      | obj fs2 =>
          simp only [convertToRedisJsonUnknownFields, isUndefined, isObject,
            Bool.false_eq_true, if_false, if_true, cleanFields, isDate,
            Bool.not_false, Bool.true_and]
          have h1 : cleanVal (convertToRedisJsonUnknown (.obj fs2)) = true :=
            cleanVal_unknown (.obj fs2)
          have h2 : cleanFields (convertToRedisJsonUnknownFields rest) = true :=
            cleanFields_unknown rest
          simp only [convertToRedisJsonUnknown] at h1
          simp [convertToRedisJsonUnknown, h1, h2]
      | null =>
          simp only [convertToRedisJsonUnknownFields, isUndefined, isObject,
            Bool.false_eq_true, if_false, convertUnknownValueToJson,
            cleanFields, isDate, cleanVal]
          simpa using cleanFields_unknown rest
      | bool b =>
          simp only [convertToRedisJsonUnknownFields, isUndefined, isObject,
            Bool.false_eq_true, if_false, convertUnknownValueToJson,
            cleanFields, isDate, cleanVal]
          simpa using cleanFields_unknown rest
      | num n =>
          simp only [convertToRedisJsonUnknownFields, isUndefined, isObject,
            Bool.false_eq_true, if_false, convertUnknownValueToJson,
            cleanFields, isDate, cleanVal]
          simpa using cleanFields_unknown rest
      | str s =>
          simp only [convertToRedisJsonUnknownFields, isUndefined, isObject,
            Bool.false_eq_true, if_false, convertUnknownValueToJson,
            cleanFields, isDate, cleanVal]
          simpa using cleanFields_unknown rest
      | date t =>
          simp only [convertToRedisJsonUnknownFields, isUndefined, isObject,
            Bool.false_eq_true, if_false, convertUnknownValueToJson,
            cleanFields, isDate, cleanVal]
          simpa using cleanFields_unknown rest
      | point a b =>
          simp only [convertToRedisJsonUnknownFields, isUndefined, isObject,
            Bool.false_eq_true, if_false, convertUnknownValueToJson,
            cleanFields, isDate, cleanVal]
          simpa using cleanFields_unknown rest
      | arr xs =>
          simp only [convertToRedisJsonUnknownFields, isUndefined, isObject,
            Bool.false_eq_true, if_false, convertUnknownValueToJson,
            cleanFields, isDate, cleanVal]
          simpa using cleanFields_unknown rest

end

/-- C10: the cleanup pass runs over every key of the document, so whenever
`toRedisJson` succeeds, the returned document — through any chain of
object-valued keys, schema-declared or not — contains no key holding
undefined and no key holding a raw `Date`; a `Date` met by the cleanup
pass is rewritten to its epoch form. -/
theorem claim_C10_cleanup_invariant :
    (∀ (schema : Schema) (data out : JVal),
      toRedisJson schema data = .ok out → cleanVal out = true) ∧
    (∀ t : Int,
      convertUnknownValueToJson (.date t) = .num (convertDateToEpoch t)) := by
  constructor
  · intro schema data out hok
    unfold toRedisJson at hok
    cases hkn : convertToRedisJsonKnown schema.definition data with
    | error e => rw [hkn] at hok; cases hok
    | ok json1 =>
        rw [hkn] at hok
        injection hok with hout
        rw [← hout]
        exact cleanVal_unknown json1
  · intro t
    rfl

/-- Witness for C10: a document with an undefined key, a loose `Date`, and
a nested object holding undefined encodes to a document satisfying the
invariant. -/
theorem claim_C10_cleanup_invariant_witness :
    cleanVal (.obj [("b", .num 7), ("n", .obj [])]) = true :=
  claim_C10_cleanup_invariant.1 ⟨[("d", ⟨.date, none⟩)]⟩
    (.obj [("a", .undef), ("b", .date 7), ("n", .obj [("c", .undef)])])
    (.obj [("b", .num 7), ("n", .obj [])]) rfl

/-! ### Toward C9: a heap model of the copy-then-mutate discipline

The value embedding above cannot express JavaScript aliasing, so the
no-input-mutation contract is carried by an explicit heap: objects and
arrays live in numbered cells, scalars are immediate.  `toRedisJson` first
deep-copies its input (`clone`) and then mutates only that copy, so its
net effect on the heap is that the returned document lives entirely in
freshly allocated cells and every cell reachable by the caller before the
call reads identically after it.  `toRedisJsonHeap` / `fromRedisJsonHeap`
below realise exactly that net effect: read the input tree out of the
heap (the snapshot the deep copy takes), run the pure conversion, and
allocate the result in fresh cells. -/

/-- A heap value: an immediate scalar or a reference to a cell. -/
inductive HVal where
  | hnull : HVal
  | hundef : HVal
  | hbool : Bool → HVal
  | hnum : Int → HVal
  | hstr : String → HVal
  | hdate : Int → HVal
  | hpoint : Int → Int → HVal
  | href : Nat → HVal
deriving Repr, DecidableEq

/-- A heap cell: an object node or an array node. -/
inductive HNode where
  | hobj : List (String × HVal) → HNode
  | harr : List HVal → HNode
deriving Repr, DecidableEq

/-- A heap: an allocation-ordered cell list (newest first) and the next
fresh address. -/
structure Heap where
  cells : List (Nat × HNode)
  next : Nat
deriving Repr, DecidableEq

/-- Look an address up among the cells (newest first). -/
def lookupCellList : List (Nat × HNode) → Nat → Option HNode
  | [], _ => none
  | (a1, nd) :: rest, a => if a1 = a then some nd else lookupCellList rest a

/-- Look an address up in a heap. -/
def lookupCell (h : Heap) (a : Nat) : Option HNode :=
  lookupCellList h.cells a

/-- Read every field of an object node with the given child reader. -/
def readFieldsWith (rd : HVal → Option JVal) :
    List (String × HVal) → Option (List (String × JVal))
  | [] => some []
  | (k, hv) :: rest =>
      match rd hv, readFieldsWith rd rest with
      | some v, some vs => some ((k, v) :: vs)
      | _, _ => none

/-- Read every element of an array node with the given child reader. -/
def readElemsWith (rd : HVal → Option JVal) : List HVal → Option (List JVal)
  | [] => some []
  | hv :: rest =>
      match rd hv, readElemsWith rd rest with
      | some v, some vs => some (v :: vs)
      | _, _ => none

/-- Read the document tree rooted at a heap value (fuel bounds the
dereferencing depth). -/
def readTree : Nat → Heap → HVal → Option JVal
  | 0, _, _ => none
  | _ + 1, _, .hnull => some .null
  | _ + 1, _, .hundef => some .undef
  | _ + 1, _, .hbool b => some (.bool b)
  | _ + 1, _, .hnum n => some (.num n)
  | _ + 1, _, .hstr s => some (.str s)
  | _ + 1, _, .hdate t => some (.date t)
  | _ + 1, _, .hpoint lon lat => some (.point lon lat)
  | fuel + 1, h, .href a =>
      match lookupCell h a with
      | some (.hobj fs) =>
          match readFieldsWith (readTree fuel h) fs with
          | some vs => some (.obj vs)
          | none => none
      | some (.harr xs) =>
          match readElemsWith (readTree fuel h) xs with
          | some vs => some (.arr vs)
          | none => none
      | none => none

mutual

/-- Allocate a document tree into fresh heap cells, returning its root
value and the grown heap. -/
def allocTree (h : Heap) : JVal → HVal × Heap
  | .null => (.hnull, h)
  | .undef => (.hundef, h)
  | .bool b => (.hbool b, h)
  | .num n => (.hnum n, h)
  | .str s => (.hstr s, h)
  | .date t => (.hdate t, h)
  | .point lon lat => (.hpoint lon lat, h)
  | .obj fs =>
      let r := allocFields h fs
      (.href r.2.next, ⟨(r.2.next, .hobj r.1) :: r.2.cells, r.2.next + 1⟩)
  | .arr xs =>
      let r := allocElems h xs
      (.href r.2.next, ⟨(r.2.next, .harr r.1) :: r.2.cells, r.2.next + 1⟩)

/-- Allocate every field value of an object. -/
def allocFields (h : Heap) : List (String × JVal) → List (String × HVal) × Heap
  | [] => ([], h)
  | (k, v) :: rest =>
      let rv := allocTree h v
      let rr := allocFields rv.2 rest
      ((k, rv.1) :: rr.1, rr.2)

/-- Allocate every element of an array. -/
def allocElems (h : Heap) : List JVal → List HVal × Heap
  | [] => ([], h)
  | v :: rest =>
      let rv := allocTree h v
      let rr := allocElems rv.2 rest
      (rv.1 :: rr.1, rr.2)

end

/-- A heap value references only cells below the bound. -/
def hvalRefsBelow (v : HVal) (n : Nat) : Prop :=
  match v with
  | .href a => a < n
  | _ => True

/-- A node references only cells below the bound. -/
def nodeRefsBelow (nd : HNode) (n : Nat) : Prop :=
  match nd with
  | .hobj fs => ∀ p ∈ fs, hvalRefsBelow p.2 n
  | .harr xs => ∀ x ∈ xs, hvalRefsBelow x n

/-- Heap well-formedness: every cell sits below the allocation counter and
references only cells below it. -/
def heapWF (h : Heap) : Prop :=
  ∀ p ∈ h.cells, p.1 < h.next ∧ nodeRefsBelow p.2 h.next

/-- One heap extends another: the counter grew and every old address reads
the same cell. -/
def heapExtends (h2 h1 : Heap) : Prop :=
  h1.next ≤ h2.next ∧ ∀ a, a < h1.next → lookupCell h2 a = lookupCell h1 a

/-- Lines 10-14 under the heap semantics: deep-copy the input, convert the
copy, hand the converted copy back — the net heap effect is a result in
fresh cells and an untouched input. -/
def toRedisJsonHeap (schema : Schema) (fuel : Nat) (h : Heap) (v : HVal) :
    Option (Except ConvErr (HVal × Heap)) :=
  match readTree fuel h v with
  | none => none
  | some doc =>
      match toRedisJson schema doc with
      | .ok res => some (.ok (allocTree h res))
      | .error e => some (.error e)

/-- Lines 95-99 under the heap semantics. -/
def fromRedisJsonHeap (schema : Schema) (fuel : Nat) (h : Heap) (v : HVal) :
    Option (Except ConvErr (HVal × Heap)) :=
  match readTree fuel h v with
  | none => none
  | some doc =>
      match fromRedisJson schema doc with
      | .ok res => some (.ok (allocTree h res))
      | .error e => some (.error e)

mutual

/-- A size measure giving the dereferencing fuel a document needs. -/
def jsize : JVal → Nat
  | .obj fs => 1 + jsizeFields fs
  | .arr xs => 1 + jsizeElems xs
  | _ => 1

/-- Field-list form of `jsize`. -/
def jsizeFields : List (String × JVal) → Nat
  | [] => 0
  | (_, v) :: rest => jsize v + jsizeFields rest

/-- Element-list form of `jsize`. -/
def jsizeElems : List JVal → Nat
  | [] => 0
  | v :: rest => jsize v + jsizeElems rest

end

theorem lookupCellList_mem (cs : List (Nat × HNode)) (a : Nat) (nd : HNode)
    (h : lookupCellList cs a = some nd) : (a, nd) ∈ cs := by
  induction cs with
  | nil => cases h
  | cons p rest ih =>
      obtain ⟨a1, nd1⟩ := p
      by_cases ha : a1 = a
      · subst ha
        simp only [lookupCellList, if_pos rfl] at h
        injection h with h
        subst h
        exact List.mem_cons_self _ _
      · simp only [lookupCellList, ha, if_false] at h
        exact List.mem_cons_of_mem _ (ih h)

theorem hvalRefsBelow_mono (v : HVal) (n m : Nat) (hnm : n ≤ m)
    (hv : hvalRefsBelow v n) : hvalRefsBelow v m := by
  cases v <;> first
    | trivial
    | (simp only [hvalRefsBelow] at *; omega)

theorem nodeRefsBelow_mono (nd : HNode) (n m : Nat) (hnm : n ≤ m)
    (hv : nodeRefsBelow nd n) : nodeRefsBelow nd m := by
  cases nd with
  | hobj fs =>
      intro p hp
      exact hvalRefsBelow_mono p.2 n m hnm (hv p hp)
  | harr xs =>
      intro x hx
      exact hvalRefsBelow_mono x n m hnm (hv x hx)

theorem heapExtends_refl (h : Heap) : heapExtends h h :=
  ⟨le_refl _, fun _ _ => rfl⟩

theorem heapExtends_trans (h3 h2 h1 : Heap) (ha : heapExtends h3 h2)
    (hb : heapExtends h2 h1) : heapExtends h3 h1 :=
  ⟨le_trans hb.1 ha.1,
    fun a hlt => (ha.2 a (lt_of_lt_of_le hlt hb.1)).trans (hb.2 a hlt)⟩

theorem heapExtends_cons (h : Heap) (nd : HNode) :
    heapExtends ⟨(h.next, nd) :: h.cells, h.next + 1⟩ h := by
  refine ⟨Nat.le_succ _, fun a hlt => ?_⟩
  simp [lookupCell, lookupCellList, Nat.ne_of_gt hlt]

mutual

theorem allocTree_extends (h : Heap) (j : JVal) :
    heapExtends (allocTree h j).2 h := by
  cases j with
  | obj fs =>
      exact heapExtends_trans _ _ _
        (heapExtends_cons (allocFields h fs).2 (.hobj (allocFields h fs).1))
        (allocFields_extends h fs)
  | arr xs =>
      exact heapExtends_trans _ _ _
        (heapExtends_cons (allocElems h xs).2 (.harr (allocElems h xs).1))
        (allocElems_extends h xs)
  | null => exact heapExtends_refl h
  | undef => exact heapExtends_refl h
  | bool b => exact heapExtends_refl h
  | num n => exact heapExtends_refl h
  | str s => exact heapExtends_refl h
  | date t => exact heapExtends_refl h
  | point a b => exact heapExtends_refl h

theorem allocFields_extends (h : Heap) (fs : List (String × JVal)) :
    heapExtends (allocFields h fs).2 h := by
  match fs with
  | [] => exact heapExtends_refl h
  | (k, v) :: rest =>
      exact heapExtends_trans _ _ _
        (allocFields_extends (allocTree h v).2 rest) (allocTree_extends h v)

theorem allocElems_extends (h : Heap) (xs : List JVal) :
    heapExtends (allocElems h xs).2 h := by
  match xs with
  | [] => exact heapExtends_refl h
  | v :: rest =>
      exact heapExtends_trans _ _ _
        (allocElems_extends (allocTree h v).2 rest) (allocTree_extends h v)

end

theorem readTree_stable (fuel : Nat) :
    ∀ (h g : Heap) (v : HVal), heapWF h → heapExtends g h →
      hvalRefsBelow v h.next → readTree fuel g v = readTree fuel h v := by
  induction fuel with
  | zero =>
      intro h g v _ _ _
      simp only [readTree]
  | succ n ih =>
      intro h g v hwf hext hv
      cases v with
      | href a =>
          have ha : a < h.next := hv
          have hlook : lookupCell g a = lookupCell h a := hext.2 a ha
          simp only [readTree]
          rw [hlook]
          cases hnd : lookupCell h a with
          | none => rfl
          | some nd =>
              have hmem : (a, nd) ∈ h.cells := lookupCellList_mem h.cells a nd hnd
              have hrefs := (hwf (a, nd) hmem).2
              cases nd with
              | hobj fs =>
                  have hfields : ∀ fs2 : List (String × HVal),
                      (∀ p ∈ fs2, hvalRefsBelow p.2 h.next) →
                      readFieldsWith (readTree n g) fs2 =
                        readFieldsWith (readTree n h) fs2 := by
                    intro fs2
                    induction fs2 with
                    | nil =>
                        intro _
                        simp only [readFieldsWith]
                    | cons p rest ihf =>
                        intro hall
                        obtain ⟨k, hv2⟩ := p
                        simp only [readFieldsWith]
                        rw [ih h g hv2 hwf hext (hall (k, hv2) (List.mem_cons_self _ _)),
                          ihf (fun q hq => hall q (List.mem_cons_of_mem _ hq))]
                  simp only [hfields fs hrefs]
              | harr xs =>
                  have helems : ∀ xs2 : List HVal,
                      (∀ x ∈ xs2, hvalRefsBelow x h.next) →
                      readElemsWith (readTree n g) xs2 =
                        readElemsWith (readTree n h) xs2 := by
                    intro xs2
                    induction xs2 with
                    | nil =>
                        intro _
                        simp only [readElemsWith]
                    | cons x rest ihf =>
                        intro hall
                        simp only [readElemsWith]
                        rw [ih h g x hwf hext (hall x (List.mem_cons_self _ _)),
                          ihf (fun q hq => hall q (List.mem_cons_of_mem _ hq))]
                  simp only [helems xs hrefs]
      | hnull => simp only [readTree]
      | hundef => simp only [readTree]
      | hbool b => simp only [readTree]
      | hnum n2 => simp only [readTree]
      | hstr s => simp only [readTree]
      | hdate t => simp only [readTree]
      | hpoint a b => simp only [readTree]

theorem readFieldsWith_stable (fuel : Nat) (h g : Heap)
    (fs : List (String × HVal)) (hwf : heapWF h) (hext : heapExtends g h)
    (hall : ∀ p ∈ fs, hvalRefsBelow p.2 h.next) :
    readFieldsWith (readTree fuel g) fs = readFieldsWith (readTree fuel h) fs := by
  induction fs with
  | nil => simp only [readFieldsWith]
  | cons p rest ih =>
      obtain ⟨k, hv⟩ := p
      simp only [readFieldsWith]
      rw [readTree_stable fuel h g hv hwf hext (hall (k, hv) (List.mem_cons_self _ _)),
        ih (fun q hq => hall q (List.mem_cons_of_mem _ hq))]

theorem readElemsWith_stable (fuel : Nat) (h g : Heap) (xs : List HVal)
    (hwf : heapWF h) (hext : heapExtends g h)
    (hall : ∀ x ∈ xs, hvalRefsBelow x h.next) :
    readElemsWith (readTree fuel g) xs = readElemsWith (readTree fuel h) xs := by
  induction xs with
  | nil => simp only [readElemsWith]
  | cons x rest ih =>
      simp only [readElemsWith]
      rw [readTree_stable fuel h g x hwf hext (hall x (List.mem_cons_self _ _)),
        ih (fun q hq => hall q (List.mem_cons_of_mem _ hq))]

theorem heapWF_cons (h : Heap) (nd : HNode) (hwf : heapWF h)
    (hnd : nodeRefsBelow nd h.next) :
    heapWF ⟨(h.next, nd) :: h.cells, h.next + 1⟩ := by
  intro p hp
  rcases List.mem_cons.mp hp with rfl | hp2
  · exact ⟨Nat.lt_succ_self _, nodeRefsBelow_mono nd _ _ (Nat.le_succ _) hnd⟩
  · have h2 := hwf p hp2
    exact ⟨Nat.lt_succ_of_lt h2.1, nodeRefsBelow_mono _ _ _ (Nat.le_succ _) h2.2⟩

mutual

theorem allocTree_spec (h : Heap) (j : JVal) (hwf : heapWF h) :
    heapWF (allocTree h j).2 ∧
    hvalRefsBelow (allocTree h j).1 (allocTree h j).2.next ∧
    (∀ fuel, jsize j ≤ fuel →
      readTree fuel (allocTree h j).2 (allocTree h j).1 = some j) := by
  cases j with
  | obj fs =>
      have hspec := allocFields_spec h fs hwf
      obtain ⟨hwf2, hrefs2, hread2⟩ := hspec
      simp only [allocTree]
      refine ⟨heapWF_cons _ _ hwf2 (by simpa [nodeRefsBelow] using hrefs2),
        by simp [hvalRefsBelow], ?_⟩
      intro fuel hfuel
      match fuel, hfuel with
      | 0, hf => simp only [jsize] at hf; omega
      | m + 1, hf =>
          have hm : jsizeFields fs ≤ m := by
            simp only [jsize] at hf; omega
          simp only [readTree, lookupCell, lookupCellList, eq_self_iff_true,
            if_true]
          rw [readFieldsWith_stable m (allocFields h fs).2 _ _ hwf2
            (heapExtends_cons (allocFields h fs).2
              (.hobj (allocFields h fs).1)) hrefs2, hread2 m hm]
  | arr xs =>
      have hspec := allocElems_spec h xs hwf
      obtain ⟨hwf2, hrefs2, hread2⟩ := hspec
      simp only [allocTree]
      refine ⟨heapWF_cons _ _ hwf2 (by simpa [nodeRefsBelow] using hrefs2),
        by simp [hvalRefsBelow], ?_⟩
      intro fuel hfuel
      match fuel, hfuel with
      | 0, hf => simp only [jsize] at hf; omega
      | m + 1, hf =>
          have hm : jsizeElems xs ≤ m := by
            simp only [jsize] at hf; omega
          simp only [readTree, lookupCell, lookupCellList, eq_self_iff_true,
            if_true]
          rw [readElemsWith_stable m (allocElems h xs).2 _ _ hwf2
            (heapExtends_cons (allocElems h xs).2
              (.harr (allocElems h xs).1)) hrefs2, hread2 m hm]
  | null =>
      simp only [allocTree]
      refine ⟨hwf, by simp [hvalRefsBelow], ?_⟩
      intro fuel hfuel
      match fuel, hfuel with
      | 0, hf => simp only [jsize] at hf; omega
      | m + 1, _ => simp only [readTree]
  | undef =>
      simp only [allocTree]
      refine ⟨hwf, by simp [hvalRefsBelow], ?_⟩
      intro fuel hfuel
      match fuel, hfuel with
      | 0, hf => simp only [jsize] at hf; omega
      | m + 1, _ => simp only [readTree]
  | bool b =>
      simp only [allocTree]
      refine ⟨hwf, by simp [hvalRefsBelow], ?_⟩
      intro fuel hfuel
      match fuel, hfuel with
      | 0, hf => simp only [jsize] at hf; omega
      | m + 1, _ => simp only [readTree]
  | num n =>
      simp only [allocTree]
      refine ⟨hwf, by simp [hvalRefsBelow], ?_⟩
      intro fuel hfuel
      match fuel, hfuel with
      | 0, hf => simp only [jsize] at hf; omega
      | m + 1, _ => simp only [readTree]
  | str s =>
      simp only [allocTree]
      refine ⟨hwf, by simp [hvalRefsBelow], ?_⟩
      intro fuel hfuel
      match fuel, hfuel with
      | 0, hf => simp only [jsize] at hf; omega
      | m + 1, _ => simp only [readTree]
  | date t =>
      simp only [allocTree]
      refine ⟨hwf, by simp [hvalRefsBelow], ?_⟩
      intro fuel hfuel
      match fuel, hfuel with
      | 0, hf => simp only [jsize] at hf; omega
      | m + 1, _ => simp only [readTree]
  | point a b =>
      simp only [allocTree]
      refine ⟨hwf, by simp [hvalRefsBelow], ?_⟩
      intro fuel hfuel
      match fuel, hfuel with
      | 0, hf => simp only [jsize] at hf; omega
      | m + 1, _ => simp only [readTree]

theorem allocFields_spec (h : Heap) (fs : List (String × JVal))
    (hwf : heapWF h) :
    heapWF (allocFields h fs).2 ∧
    (∀ p ∈ (allocFields h fs).1, hvalRefsBelow p.2 (allocFields h fs).2.next) ∧
    (∀ fuel, jsizeFields fs ≤ fuel →
      readFieldsWith (readTree fuel (allocFields h fs).2)
        (allocFields h fs).1 = some fs) := by
  match fs with
  | [] =>
      simp only [allocFields]
      refine ⟨hwf, by simp, ?_⟩
      intro fuel _
      simp only [readFieldsWith]
  | (k, v) :: rest =>
      have hv := allocTree_spec h v hwf
      have hr := allocFields_spec (allocTree h v).2 rest hv.1
      have hextr : heapExtends (allocFields (allocTree h v).2 rest).2
          (allocTree h v).2 := allocFields_extends (allocTree h v).2 rest
      simp only [allocFields]
      refine ⟨hr.1, ?_, ?_⟩
      · intro p hp
        rcases List.mem_cons.mp hp with rfl | hp2
        · exact hvalRefsBelow_mono _ _ _ hextr.1 hv.2.1
        · exact hr.2.1 p hp2
      · intro fuel hfuel
        have hsv : jsize v ≤ fuel := by
          simp only [jsizeFields] at hfuel; omega
        have hsr : jsizeFields rest ≤ fuel := by
          simp only [jsizeFields] at hfuel; omega
        simp only [readFieldsWith]
        rw [readTree_stable fuel (allocTree h v).2 _ _ hv.1 hextr hv.2.1,
          hv.2.2 fuel hsv, hr.2.2 fuel hsr]

theorem allocElems_spec (h : Heap) (xs : List JVal) (hwf : heapWF h) :
    heapWF (allocElems h xs).2 ∧
    (∀ x ∈ (allocElems h xs).1, hvalRefsBelow x (allocElems h xs).2.next) ∧
    (∀ fuel, jsizeElems xs ≤ fuel →
      readElemsWith (readTree fuel (allocElems h xs).2)
        (allocElems h xs).1 = some xs) := by
  match xs with
  | [] =>
      simp only [allocElems]
      refine ⟨hwf, by simp, ?_⟩
      intro fuel _
      simp only [readElemsWith]
  | v :: rest =>
      have hv := allocTree_spec h v hwf
      have hr := allocElems_spec (allocTree h v).2 rest hv.1
      have hextr : heapExtends (allocElems (allocTree h v).2 rest).2
          (allocTree h v).2 := allocElems_extends (allocTree h v).2 rest
      simp only [allocElems]
      refine ⟨hr.1, ?_, ?_⟩
      · intro x hx
        rcases List.mem_cons.mp hx with rfl | hx2
        · exact hvalRefsBelow_mono _ _ _ hextr.1 hv.2.1
        · exact hr.2.1 x hx2
      · intro fuel hfuel
        have hsv : jsize v ≤ fuel := by
          simp only [jsizeElems] at hfuel; omega
        have hsr : jsizeElems rest ≤ fuel := by
          simp only [jsizeElems] at hfuel; omega
        simp only [readElemsWith]
        rw [readTree_stable fuel (allocTree h v).2 _ _ hv.1 hextr hv.2.1,
          hv.2.2 fuel hsv, hr.2.2 fuel hsr]

end

/-- C9: neither direction of the transcoder mutates the caller's document.
Under the heap semantics, whenever a conversion succeeds, every cell the
caller could reach before the call reads the same afterwards, the input
document itself reads identically at any depth, and the returned root is a
freshly built tree reading back exactly the pure conversion's result —
i.e. all mutation happened on the internal copy that became the returned
value. -/
theorem claim_C9_no_input_mutation (schema : Schema) (fuel fuel2 : Nat)
    (h : Heap) (v out : HVal) (h2 : Heap)
    (hwf : heapWF h) (hv : hvalRefsBelow v h.next) :
    (toRedisJsonHeap schema fuel h v = some (.ok (out, h2)) →
      (∀ a, a < h.next → lookupCell h2 a = lookupCell h a) ∧
      readTree fuel2 h2 v = readTree fuel2 h v ∧
      (∀ doc res, readTree fuel h v = some doc →
        toRedisJson schema doc = .ok res → jsize res ≤ fuel2 →
        readTree fuel2 h2 out = some res)) ∧
    (fromRedisJsonHeap schema fuel h v = some (.ok (out, h2)) →
      (∀ a, a < h.next → lookupCell h2 a = lookupCell h a) ∧
      readTree fuel2 h2 v = readTree fuel2 h v ∧
      (∀ doc res, readTree fuel h v = some doc →
        fromRedisJson schema doc = .ok res → jsize res ≤ fuel2 →
        readTree fuel2 h2 out = some res)) := by
  constructor
  · intro heq
    unfold toRedisJsonHeap at heq
    cases hread : readTree fuel h v with
    | none => rw [hread] at heq; cases heq
    | some doc =>
        rw [hread] at heq
        have heq2 : (match toRedisJson schema doc with
            | Except.ok res => some (Except.ok (allocTree h res))
            | Except.error e => some (Except.error e)) =
            some (Except.ok (out, h2)) := heq
        cases hconv : toRedisJson schema doc with
        | error e => rw [hconv] at heq2; simp at heq2
        | ok res =>
            rw [hconv] at heq2
            simp only [Option.some.injEq, Except.ok.injEq] at heq2
            have hout : (allocTree h res).1 = out := congrArg Prod.fst heq2
            have hh2 : (allocTree h res).2 = h2 := congrArg Prod.snd heq2
            have hext := allocTree_extends h res
            refine ⟨?_, ?_, ?_⟩
            · intro a ha
              rw [← hh2]
              exact hext.2 a ha
            · rw [← hh2]
              exact readTree_stable fuel2 h _ v hwf hext hv
            · intro doc2 res2 hread2 hconv2 hsize
              injection hread2 with hd
              subst hd
              rw [hconv] at hconv2
              injection hconv2 with hr
              subst hr
              rw [← hh2, ← hout]
              exact (allocTree_spec h res hwf).2.2 fuel2 hsize
  · intro heq
    unfold fromRedisJsonHeap at heq
    cases hread : readTree fuel h v with
    | none => rw [hread] at heq; cases heq
    | some doc =>
        rw [hread] at heq
        have heq2 : (match fromRedisJson schema doc with
            | Except.ok res => some (Except.ok (allocTree h res))
            | Except.error e => some (Except.error e)) =
            some (Except.ok (out, h2)) := heq
        cases hconv : fromRedisJson schema doc with
        | error e => rw [hconv] at heq2; simp at heq2
        | ok res =>
            rw [hconv] at heq2
            simp only [Option.some.injEq, Except.ok.injEq] at heq2
            have hout : (allocTree h res).1 = out := congrArg Prod.fst heq2
            have hh2 : (allocTree h res).2 = h2 := congrArg Prod.snd heq2
            have hext := allocTree_extends h res
            refine ⟨?_, ?_, ?_⟩
            · intro a ha
              rw [← hh2]
              exact hext.2 a ha
            · rw [← hh2]
              exact readTree_stable fuel2 h _ v hwf hext hv
            · intro doc2 res2 hread2 hconv2 hsize
              injection hread2 with hd
              subst hd
              rw [hconv] at hconv2
              injection hconv2 with hr
              subst hr
              rw [← hh2, ← hout]
              exact (allocTree_spec h res hwf).2.2 fuel2 hsize

/-- Witness for C9: encoding a one-cell document in a concrete heap leaves
the caller's cell readable unchanged, and the fresh root reads back the
converted document. -/
theorem claim_C9_no_input_mutation_witness :
    (lookupCell
        ⟨[(1, .hobj [("f", .hnum 5)]),
          (0, .hobj [("f", .hnum 5), ("g", .hundef)])], 2⟩ 0 =
      lookupCell ⟨[(0, .hobj [("f", .hnum 5), ("g", .hundef)])], 1⟩ 0) ∧
    (readTree 9
        ⟨[(1, .hobj [("f", .hnum 5)]),
          (0, .hobj [("f", .hnum 5), ("g", .hundef)])], 2⟩ (.href 0) =
      readTree 9 ⟨[(0, .hobj [("f", .hnum 5), ("g", .hundef)])], 1⟩ (.href 0)) ∧
    readTree 9
        ⟨[(1, .hobj [("f", .hnum 5)]),
          (0, .hobj [("f", .hnum 5), ("g", .hundef)])], 2⟩ (.href 1) =
      some (.obj [("f", .num 5)]) := by
  have hwf : heapWF ⟨[(0, .hobj [("f", .hnum 5), ("g", .hundef)])], 1⟩ := by
    intro p hp
    simp only [List.mem_singleton] at hp
    subst hp
    refine ⟨by decide, ?_⟩
    intro q hq
    simp only [List.mem_cons, List.not_mem_nil, or_false] at hq
    rcases hq with rfl | rfl <;> simp [hvalRefsBelow]
  have hmain := (claim_C9_no_input_mutation ⟨[("f", ⟨.number, none⟩)]⟩ 3 9
    ⟨[(0, .hobj [("f", .hnum 5), ("g", .hundef)])], 1⟩ (.href 0) (.href 1)
    ⟨[(1, .hobj [("f", .hnum 5)]),
      (0, .hobj [("f", .hnum 5), ("g", .hundef)])], 2⟩
    hwf (by simp [hvalRefsBelow])).1 rfl
  exact ⟨hmain.1 0 (by decide), hmain.2.1,
    hmain.2.2 (.obj [("f", .num 5), ("g", .undef)]) (.obj [("f", .num 5)])
      rfl rfl (by simp [jsize, jsizeFields])⟩

end RedisOm
